import Mathlib

/-!
Verification model of the confined virtual filesystem layer in vfs_esp32.h
(lwip-ftpd). Buffers are byte lists; a C string value is the byte sequence up
to the first NUL. The path normalizer, the absolute-path resolver, chdir,
getcwd and rename are translated operation by operation from the source.
-/

namespace VfsModel

/-- NUL terminator byte of C strings. -/
def NUL : Char := Char.ofNat 0

/-- Value of a C string stored in a byte region: bytes up to the first NUL. -/
def cstr (l : List Char) : List Char := l.takeWhile (· ≠ NUL)

/-- String value found at offset `off` of a buffer (C pointer arithmetic `buf + off`). -/
def strAt (b : List Char) (off : Nat) : List Char := cstr (b.drop off)

/-- Single byte store `buf[i] = c`. -/
def setByte (b : List Char) (i : Nat) (c : Char) : List Char := b.set i c

/-- memcpy of `src.length` bytes to `buf + off`. -/
def writeBytes (b : List Char) (off : Nat) (src : List Char) : List Char :=
  b.take off ++ src ++ b.drop (off + src.length)

/-- Index of the first occurrence of the two-byte pattern `a b` (C `strstr(s, "ab")`). -/
def findPat2 (a b : Char) : List Char → Option Nat
  | x :: y :: rest => if x = a ∧ y = b then some 0 else (findPat2 a b (y :: rest)).map (· + 1)
  | _ => none

/-- First loop of normalize_path (vfs_esp32.h lines 106-107): while the head is
a slash, or a dot followed by a slash, shift the string left by one byte.  The C
removes one byte per iteration; a removed leading dot always exposes a leading
slash that the next iteration removes, so the net effect per match is as below. -/
def stripLead : List Char → List Char
  | '/' :: rest => stripLead rest
  | '.' :: '/' :: rest => stripLead rest
  | s => s

/-- Second loop of normalize_path (lines 109-112): find "//" starting from the
current position, delete one slash in place, and continue searching from the
same position.  Fuel bounds the iteration count; each step shortens the string,
so fuel equal to the initial length is never exhausted before the strstr miss. -/
def collapseF : Nat → List Char → Nat → List Char
  | 0, s, _ => s
  | fuel+1, s, i =>
    match findPat2 '/' '/' (s.drop i) with
    | none => s
    | some j => collapseF fuel (s.take (i+j) ++ s.drop (i+j+1)) (i+j)

/-- Index of the last slash in a byte list (C `strrchr(path, '/')`). -/
def lastSlash : List Char → Option Nat
  | [] => none
  | c :: rest =>
    match lastSlash rest with
    | some k => some (k+1)
    | none => if c = '/' then some 0 else none

/-- Third loop of normalize_path (lines 114-133): scan for "/."; the first
branch (pattern "//") is the dead memcmp branch of line 116 (strstr already
fixed the byte after the slash to a dot); "/." followed by end or slash is
deleted; "/.." followed by end or slash truncates at the match, resolves
against the last slash of the prefix — or against the string start, skipping
one slash of the tail, when the prefix has none — and splices the tail there;
anything else advances the scan position by two.  The fuel argument bounds the
loop; every branch either shortens the string or advances the position, so a
fuel of three times the length is never exhausted before the strstr miss. -/
def dotF : Nat → List Char → Nat → List Char
  | 0, s, _ => s
  | fuel+1, s, i =>
    match findPat2 '/' '.' (s.drop i) with
    | none => s
    | some jr =>
      let j := i + jr
      if s[j+1]? = some '/' then
        dotF fuel (s.take j ++ s.drop (j+1)) j
      else if s[j+2]? = none ∨ s[j+2]? = some '/' then
        dotF fuel (s.take j ++ s.drop (j+2)) j
      else if s[j+2]? = some '.' ∧ (s[j+3]? = none ∨ s[j+3]? = some '/') then
        match lastSlash (s.take j) with
        | some k => dotF fuel (s.take k ++ s.drop (j+3)) k
        | none =>
          if s[j+3]? = some '/' then dotF fuel (s.drop (j+4)) 0
          else dotF fuel (s.drop (j+3)) 0
      else
        dotF fuel s (j+2)

/-- normalize_path (lines 105-134): strip the leading slashes and dot-slashes,
collapse double slashes, then resolve the dot and dot-dot segments in place. -/
def normalize_path (s : List Char) : List Char :=
  let s1 := stripLead s
  let s2 := collapseF s1.length s1 0
  dotF (3 * s2.length) s2 0

/-- Session state (struct vfs_t, lines 50-62): two path buffers and the two
protected prefix lengths. -/
structure Vfs where
  file1 : List Char
  file2 : List Char
  rootlen : Nat
  cwdlen : Nat
deriving DecidableEq

/-- Failure cause of abspath_: the capacity check of line 138 (logged as "path
too long") or the cwd-confinement check of lines 152-154 (logged as "refusing
absolute path which doesn't point into the current cwd").  The C function
returns NULL in both cases. -/
inductive AbsErr
  | tooLong
  | escapes
deriving DecidableEq

/-- In-place normalization of the string at `buf + off`
(`normalize_path(buffer + vfs->cwdlen)` and the rootlen variant): the string
value at the offset is rewritten and re-terminated; bytes before the offset are
untouched, and bytes past the new terminator are scratch. -/
def normAt (b : List Char) (off : Nat) : List Char :=
  let t := normalize_path (strAt b off)
  b.take off ++ t ++ [NUL] ++ b.drop (off + t.length + 1)

/-- abspath_ (lines 136-176).  Returns the failure cause (None on success)
together with the buffer contents after the call; on success the C function
returns the buffer pointer, so the resolved path is the string at offset 0. -/
def abspath_ (v : Vfs) (buffer : List Char) (buflen : Nat) (path : List Char)
    (limit_to_cwd : Bool) : Option AbsErr × List Char :=
  let len := path.length
  if buflen < v.cwdlen + len + 1 then
    (some .tooLong, buffer)
  else
    -- line 144: restore the cwd's trailing slash, possibly zeroed by vfs_getcwd
    let buf := setByte buffer (v.cwdlen - 1) '/'
    -- lines 170-173: the normalized suffix starts at the cwd boundary when
    -- confined to the cwd, at the root boundary otherwise
    let noff := if limit_to_cwd then v.cwdlen else v.rootlen
    if path[0]? = some '/' then
      if limit_to_cwd then
        let k := v.cwdlen - v.rootlen
        if len < k ∨ (buf.drop (v.rootlen - 1)).take k ≠ path.take k
            ∨ (path.getD k NUL ≠ NUL ∧ path.getD k NUL ≠ '/') then
          (some .escapes, buf)
        else
          (none, normAt (writeBytes buf (v.cwdlen - 1) (path.drop k ++ [NUL])) noff)
      else
        (none, normAt (writeBytes buf (v.rootlen - 1) (path ++ [NUL])) noff)
    else
      (none, normAt (writeBytes buf v.cwdlen (path ++ [NUL])) noff)

/-- vfs_getcwd (lines 244-254): zero-terminate buffer A at the cwd boundary
(before the trailing slash when the cwd is deeper than root, after it
otherwise) and return a copy of the string at offset rootlen - 1. -/
def vfs_getcwd (v : Vfs) : List Char × Vfs :=
  let idx := if v.rootlen < v.cwdlen then v.cwdlen - 1 else v.cwdlen
  let f1 := setByte v.file1 idx NUL
  (strAt f1 (v.rootlen - 1), { v with file1 := f1 })

/-- Failure causes of vfs_chdir in the taxonomy of the specification:
resolution or slash-append capacity failure, confinement refusal (never
produced in root-relative mode), and the missing-or-not-a-directory case. -/
inductive ChdirErr
  | tooLong
  | escapes
  | notADirectory
deriving DecidableEq

/-- Lines 207-219 of vfs_chdir: zero the final slash, test root-or-directory,
then either commit (restore the slash, set cwdlen, copy to buffer B) or restore
buffer A from buffer B and fail. -/
def chdirCheck (isDir : List Char → Bool) (v : Vfs) (b : List Char) (len : Nat) :
    Option ChdirErr × Vfs :=
  let b0 := setByte b (len - 1) NUL
  if len = v.rootlen ∨ isDir (strAt b0 0) then
    let b1 := setByte b0 (len - 1) '/'
    (none,
      { file1 := b1
        file2 := writeBytes v.file2 0 (b1.take (len + 1))
        rootlen := v.rootlen
        cwdlen := len })
  else
    (some .notADirectory,
      { v with file1 := setByte (writeBytes b0 0 (v.file2.take v.cwdlen)) v.cwdlen NUL })

/-- vfs_chdir (lines 186-220).  `isDir p` models `stat(p, &st) == 0 &&
S_ISDIR(st.st_mode)` of line 209.  Resolution is root-relative
(limit_to_cwd = false); a missing trailing slash is appended when capacity
allows; the candidate is accepted if it is the root itself or an existing
directory, in which case it is committed to both buffers and cwdlen; otherwise
buffer A is restored from buffer B and the call fails. -/
def vfs_chdir (isDir : List Char → Bool) (v : Vfs) (cap : Nat) (path : List Char) :
    Option ChdirErr × Vfs :=
  let r := abspath_ v v.file1 cap path false
  let b := r.2
  match r.1 with
  | some .tooLong => (some .tooLong, { v with file1 := b })
  | some .escapes => (some .escapes, { v with file1 := b })
  | none =>
    let len0 := (strAt b 0).length
    if b[len0 - 1]? ≠ some '/' then
      if len0 + 2 ≥ cap then
        -- lines 196-199: restore buffer A from buffer B and fail
        (some .tooLong,
          { v with file1 := setByte (writeBytes b 0 (v.file2.take v.cwdlen)) v.cwdlen NUL })
      else
        chdirCheck isDir v (setByte (setByte b len0 '/') (len0 + 1) NUL) (len0 + 1)
    else
      chdirCheck isDir v b len0

/-- vfs_rename (lines 237-242).  `ren a b` models the delegate `rename(a, b)`
return value.  The middle component records the delegate invocation (the two
path strings passed), or none when the delegate was never reached.  The first
component is the C return value: `from && to && rename(from, to) ? 1 : 0`,
i.e. 1 exactly when both resolutions succeeded and the delegate returned
nonzero, and 0 in every other case — including resolution failure. -/
def vfs_rename (ren : List Char → List Char → Int) (v : Vfs) (cap : Nat)
    (src dst : List Char) : Int × Option (List Char × List Char) × Vfs :=
  let r1 := abspath_ v v.file1 cap src true
  let r2 := abspath_ v v.file2 cap dst true
  let v2 := { v with file1 := r1.2, file2 := r2.2 }
  match r1.1, r2.1 with
  | none, none =>
    let a := strAt r1.2 0
    let b := strAt r2.2 0
    (if ren a b ≠ 0 then 1 else 0, some (a, b), v2)
  | _, _ => (0, none, v2)

/-! Generic lemmas about the byte-buffer primitives. -/

lemma length_writeBytes (b src : List Char) (off : Nat) (h : off + src.length ≤ b.length) :
    (writeBytes b off src).length = b.length := by
  simp [writeBytes, List.length_append, List.length_take, List.length_drop]
  omega

lemma getElem?_writeBytes (b src : List Char) (off : Nat) (hoff : off ≤ b.length) (m : Nat) :
    (writeBytes b off src)[m]? =
      if m < off then b[m]? else if m < off + src.length then src[m - off]? else b[m]? := by
  have hlt : (b.take off).length = off := by
    simp [List.length_take]; omega
  simp only [writeBytes, List.getElem?_append, List.length_append, hlt]
  by_cases h1 : m < off
  · simp [h1, List.getElem?_take, Nat.lt_of_lt_of_le h1 (by omega : off ≤ off + src.length)]
  · have h4 : ¬ m < off + (src.length + (b.length - (off + src.length))) ∨ True := Or.inr trivial
    by_cases h2 : m < off + src.length
    · have h5 : m - off < src.length := by omega
      simp [h1, h2, h5]
    · have h3 : ¬ m - off < src.length := by omega
      simp only [if_neg h1, if_neg h2, if_neg h3, List.getElem?_drop]
      congr 1
      omega

lemma take_writeBytes (b src : List Char) (off : Nat) (hoff : off ≤ b.length) :
    (writeBytes b off src).take off = b.take off := by
  have hlt : (b.take off).length = off := by
    simp [List.length_take]; omega
  calc (writeBytes b off src).take off
      = ((b.take off) ++ (src ++ b.drop (off + src.length))).take (b.take off).length := by
        simp [writeBytes, hlt]
    _ = b.take off := List.take_left _ _

lemma getElem?_setByte (b : List Char) (i : Nat) (c : Char) (m : Nat) :
    (setByte b i c)[m]? = if i = m ∧ i < b.length then some c else b[m]? := by
  simp only [setByte, List.getElem?_set]
  by_cases h1 : i = m
  · subst h1
    by_cases h2 : i < b.length
    · simp [h2]
    · simp [h2, List.getElem?_eq_none (by omega : b.length ≤ i)]
  · simp [h1]

lemma length_setByte (b : List Char) (i : Nat) (c : Char) :
    (setByte b i c).length = b.length := by
  simp [setByte]

lemma take_normAt (b : List Char) (off : Nat) (hoff : off ≤ b.length) :
    (normAt b off).take off = b.take off := by
  have hlt : (b.take off).length = off := by
    simp [List.length_take]; omega
  have h1 : normAt b off = b.take off ++
      (normalize_path (strAt b off) ++ [NUL] ++
        b.drop (off + (normalize_path (strAt b off)).length + 1)) := by
    simp [normAt]
  rw [h1]
  have h2 := List.take_left (b.take off)
    (normalize_path (strAt b off) ++ [NUL] ++
      b.drop (off + (normalize_path (strAt b off)).length + 1))
  rwa [hlt] at h2

lemma cstr_nul_free (l : List Char) : NUL ∉ cstr l := by
  intro h
  have := List.mem_takeWhile_imp h
  simp at this

lemma cstr_append_left (l r : List Char) (h : ∀ x ∈ l, x ≠ NUL) :
    cstr (l ++ r) = l ++ cstr r := by
  induction l with
  | nil => simp
  | cons c rest ih =>
    have hc : c ≠ NUL := h c (List.mem_cons_self c rest)
    simp only [List.cons_append, cstr, List.takeWhile_cons]
    simp only [cstr] at ih
    rw [ih (fun x hx => h x (List.mem_cons_of_mem c hx))] at *
    simp [hc]

lemma cstr_append_nul (l r : List Char) (h : ∀ x ∈ l, x ≠ NUL) :
    cstr (l ++ NUL :: r) = l := by
  rw [cstr_append_left l (NUL :: r) h]
  simp [cstr, List.takeWhile_cons]

/-! Character-membership lemmas for the normalizer: every output byte is an
input byte, so normalizing a NUL-free string yields a NUL-free string. -/

lemma stripLead_suffix (s : List Char) : ∃ n, stripLead s = s.drop n := by
  induction s using stripLead.induct with
  | case1 rest ih =>
    obtain ⟨n, hn⟩ := ih
    exact ⟨n + 1, by simpa [stripLead] using hn⟩
  | case2 rest ih =>
    obtain ⟨n, hn⟩ := ih
    exact ⟨n + 2, by simpa [stripLead] using hn⟩
  | case3 s h1 h2 =>
    refine ⟨0, ?_⟩
    rw [stripLead.eq_def]
    split
    · exact absurd rfl (h1 _)
    · exact absurd rfl (h2 _)
    · rfl

lemma mem_stripLead (s : List Char) (x : Char) (h : x ∈ stripLead s) : x ∈ s := by
  obtain ⟨n, hn⟩ := stripLead_suffix s
  rw [hn] at h
  exact List.drop_subset n s h

lemma mem_collapseF (fuel : Nat) (s : List Char) (i : Nat) (x : Char)
    (h : x ∈ collapseF fuel s i) : x ∈ s := by
  induction fuel generalizing s i with
  | zero => simpa [collapseF] using h
  | succ fuel ih =>
    simp only [collapseF] at h
    split at h
    · exact h
    · have := ih _ _ h
      rcases List.mem_append.mp this with h1 | h1
      · exact List.take_subset _ _ h1
      · exact List.drop_subset _ _ h1

lemma mem_dotF (fuel : Nat) (s : List Char) (i : Nat) (x : Char)
    (h : x ∈ dotF fuel s i) : x ∈ s := by
  induction fuel generalizing s i with
  | zero => simpa [dotF] using h
  | succ fuel ih =>
    simp only [dotF] at h
    split at h
    · exact h
    · split at h
      · have := ih _ _ h
        rcases List.mem_append.mp this with h1 | h1
        · exact List.take_subset _ _ h1
        · exact List.drop_subset _ _ h1
      · split at h
        · have := ih _ _ h
          rcases List.mem_append.mp this with h1 | h1
          · exact List.take_subset _ _ h1
          · exact List.drop_subset _ _ h1
        · split at h
          · split at h
            · have := ih _ _ h
              rcases List.mem_append.mp this with h1 | h1
              · exact List.take_subset _ _ h1
              · exact List.drop_subset _ _ h1
            · split at h
              · exact List.drop_subset _ _ (ih _ _ h)
              · exact List.drop_subset _ _ (ih _ _ h)
          · exact ih _ _ h

lemma mem_normalize (s : List Char) (x : Char) (h : x ∈ normalize_path s) : x ∈ s := by
  simp only [normalize_path] at h
  exact mem_stripLead _ _ (mem_collapseF _ _ _ _ (mem_dotF _ _ _ _ h))

lemma normalize_nul_free (s : List Char) (h : ∀ x ∈ s, x ≠ NUL) :
    ∀ x ∈ normalize_path s, x ≠ NUL :=
  fun x hx => h x (mem_normalize s x hx)

/-! Concrete sessions used by the scenario claims.  Buffer capacity is the
size of the fixed char arrays; unused bytes start as NUL. -/

/-- Session with root /data/ and committed cwd /data/sub/, capacity 20. -/
def vfsSub : Vfs :=
  { file1 := ['/', 'd', 'a', 't', 'a', '/', 's', 'u', 'b', '/'] ++ List.replicate 10 NUL
    file2 := ['/', 'd', 'a', 't', 'a', '/', 's', 'u', 'b', '/'] ++ List.replicate 10 NUL
    rootlen := 6
    cwdlen := 10 }

/-- Session with root and cwd both /data/, capacity 8. -/
def vfsTiny : Vfs :=
  { file1 := ['/', 'd', 'a', 't', 'a', '/'] ++ List.replicate 2 NUL
    file2 := ['/', 'd', 'a', 't', 'a', '/'] ++ List.replicate 2 NUL
    rootlen := 6
    cwdlen := 6 }

/-- Session with root /d/ and committed cwd /d/ab/ (deeper than root), capacity 10. -/
def vfsDeep : Vfs :=
  { file1 := ['/', 'd', '/', 'a', 'b', '/'] ++ List.replicate 4 NUL
    file2 := ['/', 'd', '/', 'a', 'b', '/'] ++ List.replicate 4 NUL
    rootlen := 3
    cwdlen := 6 }

/-! Claim C8. -/

lemma abspath_false_err (v : Vfs) (buffer : List Char) (buflen : Nat) (path : List Char) :
    (abspath_ v buffer buflen path false).1 = none ∨
    (abspath_ v buffer buflen path false).1 = some AbsErr.tooLong := by
  by_cases hcap : buflen < v.cwdlen + path.length + 1
  · simp [abspath_, hcap]
  · by_cases hsl : path[0]? = some '/'
    · simp [abspath_, hcap, hsl]
    · simp [abspath_, hcap, hsl]

lemma chdirCheck_err (isDir : List Char → Bool) (v : Vfs) (b : List Char) (len : Nat) :
    (chdirCheck isDir v b len).1 = none ∨
    (chdirCheck isDir v b len).1 = some ChdirErr.notADirectory := by
  by_cases h : len = v.rootlen ∨ isDir (strAt (setByte b (len - 1) NUL) 0) = true
  · simp [chdirCheck, h]
  · simp [chdirCheck, h]

/-- C8: change_directory never fails with PathEscapesRoot.  Its resolution runs
in root-relative mode (limit_to_cwd = false), whose only failure is the
capacity check, so a vfs_chdir failure is always PathTooLong or NotADirectory. -/
theorem chdir_never_escapes :
    (∀ (v : Vfs) (buffer : List Char) (buflen : Nat) (path : List Char),
      (abspath_ v buffer buflen path false).1 = none ∨
      (abspath_ v buffer buflen path false).1 = some AbsErr.tooLong) ∧
    (∀ (isDir : List Char → Bool) (v : Vfs) (cap : Nat) (path : List Char),
      (vfs_chdir isDir v cap path).1 = none ∨
      (vfs_chdir isDir v cap path).1 = some ChdirErr.tooLong ∨
      (vfs_chdir isDir v cap path).1 = some ChdirErr.notADirectory) := by
  refine ⟨abspath_false_err, ?_⟩
  intro isDir v cap path
  simp only [vfs_chdir]
  rcases herr : (abspath_ v v.file1 cap path false).1 with _ | e
  · simp only
    split
    · split
      · simp
      · rcases chdirCheck_err isDir v _ _ with h | h
        · exact Or.inl h
        · exact Or.inr (Or.inr h)
    · rcases chdirCheck_err isDir v _ _ with h | h
      · exact Or.inl h
      · exact Or.inr (Or.inr h)
  · cases e
    · simp
    · have := abspath_false_err v v.file1 cap path
      rw [herr] at this
      simp at this

/-! Claim C2 (code bug in vfs_rename).  When resolution of either path fails,
the C expression `from && to && rename(from, to) ? 1 : 0` evaluates to 0 — the
success return convention of the sibling operations (vfs_mkdir etc. return 0 on
success) — even though the delegate rename was never invoked. -/

/-- C2: with root = cwd = /data/ and capacity 8, resolving the source path xy
fails (6 + 2 + 1 > 8), the delegate is never invoked (trace component none),
and yet vfs_rename returns 0, the success code — for every delegate behavior. -/
theorem rename_resolution_failure_returns_success :
    ∀ ren : List Char → List Char → Int,
      (vfs_rename ren vfsTiny 8 ['x', 'y'] ['a']).1 = 0 ∧
      (vfs_rename ren vfsTiny 8 ['x', 'y'] ['a']).2.1 = none ∧
      (abspath_ vfsTiny vfsTiny.file1 8 ['x', 'y'] true).1 = some AbsErr.tooLong := by
  intro ren
  refine ⟨rfl, rfl, by decide⟩

/-! Claim C4.  The scenario claims resolving the relative path ../x with
cwd /data/sub/ under limit_to_cwd = true yields /data/x; in fact normalization
runs only on the suffix past the cwd, where the leading dot-dot has no
preceding slash and is never matched, so the resolver succeeds with the
uncollapsed /data/sub/../x.  Only root-relative resolution (limit_to_cwd =
false, the vfs_chdir mode) yields /data/x. -/

/-- C4 counterexample: resolution of ../x succeeds but does not return /data/x. -/
theorem relative_dotdot_not_collapsed :
    (abspath_ vfsSub vfsSub.file1 20 ['.', '.', '/', 'x'] true).1 = none ∧
    strAt (abspath_ vfsSub vfsSub.file1 20 ['.', '.', '/', 'x'] true).2 0 ≠
      ['/', 'd', 'a', 't', 'a', '/', 'x'] := by
  decide

/-- C4 amended: with root /data/ and cwd /data/sub/, resolving ../x with
limit_to_cwd = true succeeds and returns exactly /data/sub/../x (the dot-dot
segment survives, uncollapsed), while the root-relative mode used by
change_directory (limit_to_cwd = false) returns /data/x. -/
theorem relative_dotdot_resolution :
    (abspath_ vfsSub vfsSub.file1 20 ['.', '.', '/', 'x'] true).1 = none ∧
    strAt (abspath_ vfsSub vfsSub.file1 20 ['.', '.', '/', 'x'] true).2 0 =
      ['/', 'd', 'a', 't', 'a', '/', 's', 'u', 'b', '/', '.', '.', '/', 'x'] ∧
    (abspath_ vfsSub vfsSub.file1 20 ['.', '.', '/', 'x'] false).1 = none ∧
    strAt (abspath_ vfsSub vfsSub.file1 20 ['.', '.', '/', 'x'] false).2 0 =
      ['/', 'd', 'a', 't', 'a', '/', 'x'] := by
  decide

/-! Claim C9. -/

/-- C9: the resolver's capacity precondition is cwd_len + length(path) + 1 ≤
capacity in every mode; with root /d/, cwd /d/ab/ and capacity 10, the absolute
chdir target /x/yz would fit when spliced at root_len - 1 (2 + 5 + 1 ≤ 10) yet
is rejected as too long (10 < 6 + 5 + 1). -/
theorem resolver_capacity_check :
    (∀ (v : Vfs) (buffer : List Char) (buflen : Nat) (path : List Char) (limit : Bool),
      buflen < v.cwdlen + path.length + 1 →
      abspath_ v buffer buflen path limit = (some AbsErr.tooLong, buffer)) ∧
    ((vfsDeep.rootlen - 1) + (['/', 'x', '/', 'y', 'z'] : List Char).length + 1 ≤ 10 ∧
      10 < vfsDeep.cwdlen + (['/', 'x', '/', 'y', 'z'] : List Char).length + 1 ∧
      abspath_ vfsDeep vfsDeep.file1 10 ['/', 'x', '/', 'y', 'z'] false =
        (some AbsErr.tooLong, vfsDeep.file1)) := by
  constructor
  · intro v buffer buflen path limit h
    unfold abspath_
    rw [if_pos h]
  · exact ⟨by decide, by decide, by decide⟩

/-- C9 witness: the capacity rejection at a concrete input, obtained from the
universal component of the theorem. -/
theorem resolver_capacity_check_witness :
    abspath_ vfsDeep vfsDeep.file1 10 ['/', 'x', '/', 'y', 'z'] true =
      (some AbsErr.tooLong, vfsDeep.file1) :=
  resolver_capacity_check.1 vfsDeep vfsDeep.file1 10 _ true (by decide)

/-! Claim C7. -/

lemma getElem?_of_take_eq (l1 l2 : List Char) (j m : Nat) (h : l1.take j = l2.take j)
    (hm : m < j) : l1[m]? = l2[m]? := by
  have h2 := congrArg (fun l => l[m]?) h
  simpa [List.getElem?_take, hm] using h2

/-- Committed cwd used by the scenario sessions with cwd /data/sub/. -/
def cwdSub : List Char := ['/', 'd', 'a', 't', 'a', '/', 's', 'u', 'b', '/']

/-- C7: for an absolute client path under limit_to_cwd = true (capacity
permitting), resolution fails with PathEscapesRoot exactly when the portion of
the cwd beyond root (with its leading separator, bytes rootlen - 1 to
cwdlen - 2 of the cwd) fails to be a prefix of the client path, or the
character after that shared prefix is neither end-of-string nor a slash; and
on that failure the cwd prefix bytes of the buffer are not overwritten (the
buffer still carries the committed prefix, with its trailing slash restored). -/
theorem absolute_escape_iff (v : Vfs) (buffer cwd path : List Char) (cap : Nat)
    (h1 : 1 ≤ v.rootlen) (h2 : v.rootlen ≤ v.cwdlen)
    (hblen : buffer.length = cap)
    (hcap : v.cwdlen + path.length + 1 ≤ cap)
    (hcwd : cwd.length = v.cwdlen) (hnul : NUL ∉ cwd)
    (hbuf : buffer.take (v.cwdlen - 1) = cwd.take (v.cwdlen - 1))
    (hpnul : NUL ∉ path)
    (hsl : path[0]? = some '/') :
    ((abspath_ v buffer cap path true).1 = some AbsErr.escapes ↔
      ¬ (path.take (v.cwdlen - v.rootlen) =
           (cwd.drop (v.rootlen - 1)).take (v.cwdlen - v.rootlen) ∧
         (path[v.cwdlen - v.rootlen]? = none ∨ path[v.cwdlen - v.rootlen]? = some '/'))) ∧
    ((abspath_ v buffer cap path true).1 = some AbsErr.escapes →
      (abspath_ v buffer cap path true).2.take (v.cwdlen - 1) = cwd.take (v.cwdlen - 1) ∧
      (abspath_ v buffer cap path true).2[v.cwdlen - 1]? = some '/') := by
  have hncap : ¬ cap < v.cwdlen + path.length + 1 := by omega
  set k := v.cwdlen - v.rootlen with hk
  have hred : abspath_ v buffer cap path true =
      (if path.length < k
          ∨ ((setByte buffer (v.cwdlen - 1) '/').drop (v.rootlen - 1)).take k ≠ path.take k
          ∨ (path.getD k NUL ≠ NUL ∧ path.getD k NUL ≠ '/') then
        (some AbsErr.escapes, setByte buffer (v.cwdlen - 1) '/')
      else
        (none, normAt (writeBytes (setByte buffer (v.cwdlen - 1) '/') (v.cwdlen - 1)
          (path.drop k ++ [NUL])) v.cwdlen)) := by
    simp [abspath_, hncap, hsl]
  have hseg : ((setByte buffer (v.cwdlen - 1) '/').drop (v.rootlen - 1)).take k =
      (cwd.drop (v.rootlen - 1)).take k := by
    apply List.ext_getElem?
    intro n
    by_cases hn : n < k
    · rw [List.getElem?_take, if_pos hn, List.getElem?_drop, List.getElem?_take, if_pos hn,
        List.getElem?_drop, getElem?_setByte]

      have hne : ¬ (v.cwdlen - 1 = v.rootlen - 1 + n ∧ v.cwdlen - 1 < buffer.length) := by
        rintro ⟨he, _⟩
        omega
      rw [if_neg hne]
      exact getElem?_of_take_eq buffer cwd (v.cwdlen - 1) _ hbuf (by omega)
    · rw [List.getElem?_take, if_neg hn, List.getElem?_take, if_neg hn]
  have hlenlt : path.length < k → path.take k ≠ (cwd.drop (v.rootlen - 1)).take k := by
    intro hl heq
    have h3 := congrArg List.length heq
    simp [List.length_take, List.length_drop, hcwd] at h3
    omega
  have hequiv : (path.length < k
        ∨ ((setByte buffer (v.cwdlen - 1) '/').drop (v.rootlen - 1)).take k ≠ path.take k
        ∨ (path.getD k NUL ≠ NUL ∧ path.getD k NUL ≠ '/')) ↔
      ¬ (path.take k = (cwd.drop (v.rootlen - 1)).take k ∧
         (path[k]? = none ∨ path[k]? = some '/')) := by
    rw [hseg]
    constructor
    · rintro (hl | hne | ⟨hd1, hd2⟩) ⟨hp, hn⟩
      · exact hlenlt hl hp
      · exact hne hp.symm
      · rcases hn with hn | hn
        · exact hd1 (by rw [List.getD_eq_getElem?_getD, hn]; rfl)
        · exact hd2 (by rw [List.getD_eq_getElem?_getD, hn]; rfl)
    · intro hns
      by_cases hp : path.take k = (cwd.drop (v.rootlen - 1)).take k
      · right; right
        have hn : ¬ (path[k]? = none ∨ path[k]? = some '/') := fun h => hns ⟨hp, h⟩
        push_neg at hn
        obtain ⟨hn1, hn2⟩ := hn
        rcases hq : path[k]? with _ | c
        · exact absurd hq hn1
        · have hc : c ≠ NUL := fun h => hpnul (h ▸ List.getElem?_mem hq)
          have hgd : path.getD k NUL = c := by rw [List.getD_eq_getElem?_getD, hq]; rfl
          refine ⟨by rw [hgd]; exact hc, by rw [hgd]; intro h; exact hn2 (h ▸ hq)⟩
      · exact Or.inr (Or.inl (fun h => hp h.symm))
  constructor
  · rw [hred]
    by_cases hcond : (path.length < k
        ∨ ((setByte buffer (v.cwdlen - 1) '/').drop (v.rootlen - 1)).take k ≠ path.take k
        ∨ (path.getD k NUL ≠ NUL ∧ path.getD k NUL ≠ '/'))
    · simp only [if_pos hcond]
      exact ⟨fun _ => hequiv.mp hcond, fun _ => trivial⟩
    · simp only [if_neg hcond]
      constructor
      · intro h
        exact absurd h (by simp)
      · intro h
        exact absurd (hequiv.mpr h) hcond
  · intro hesc
    rw [hred] at hesc ⊢
    by_cases hcond : (path.length < k
        ∨ ((setByte buffer (v.cwdlen - 1) '/').drop (v.rootlen - 1)).take k ≠ path.take k
        ∨ (path.getD k NUL ≠ NUL ∧ path.getD k NUL ≠ '/'))
    · simp only [if_pos hcond]
      constructor
      · apply List.ext_getElem?
        intro n
        by_cases hn : n < v.cwdlen - 1
        · rw [List.getElem?_take, if_pos hn, List.getElem?_take, if_pos hn, getElem?_setByte,
            if_neg (by rintro ⟨he, _⟩; omega)]
          exact getElem?_of_take_eq buffer cwd (v.cwdlen - 1) _ hbuf hn
        · rw [List.getElem?_take, if_neg hn, List.getElem?_take, if_neg hn]
      · rw [getElem?_setByte, if_pos ⟨rfl, by omega⟩]
    · rw [if_neg hcond] at hesc
      simp at hesc

/-- C7 witness: the scenario of the claim — absolute client path /other with
cwd /data/sub/ fails with PathEscapesRoot and the cwd prefix of the buffer is
intact afterwards. -/
theorem absolute_escape_iff_witness :
    (abspath_ vfsSub vfsSub.file1 20 ['/', 'o', 't', 'h', 'e', 'r'] true).1 =
      some AbsErr.escapes ∧
    (abspath_ vfsSub vfsSub.file1 20 ['/', 'o', 't', 'h', 'e', 'r'] true).2.take 9 =
      cwdSub.take 9 ∧
    (abspath_ vfsSub vfsSub.file1 20 ['/', 'o', 't', 'h', 'e', 'r'] true).2[9]? = some '/' := by
  have h := absolute_escape_iff vfsSub vfsSub.file1 cwdSub ['/', 'o', 't', 'h', 'e', 'r'] 20
    (by decide) (by decide) (by decide) (by decide) (by decide) (by decide) (by decide)
    (by decide) (by decide)
  have hesc : (abspath_ vfsSub vfsSub.file1 20 ['/', 'o', 't', 'h', 'e', 'r'] true).1 =
      some AbsErr.escapes := h.1.mpr (by decide)
  exact ⟨hesc, (h.2 hesc).1, (h.2 hesc).2⟩

/-! Claim C1. -/

lemma strAt_nul_free (b : List Char) (off : Nat) : ∀ x ∈ strAt b off, x ≠ NUL := by
  intro x hx
  have h := List.mem_takeWhile_imp hx
  simpa using h

lemma cstr_decomp (pre t rest : List Char) (hpre : ∀ x ∈ pre, x ≠ NUL)
    (ht : ∀ x ∈ t, x ≠ NUL) :
    cstr (pre ++ t ++ [NUL] ++ rest) = pre ++ t := by
  have h : pre ++ t ++ [NUL] ++ rest = (pre ++ t) ++ (NUL :: rest) := by simp
  rw [h, cstr_append_nul _ _ ?_]
  intro x hx
  rcases List.mem_append.mp hx with h1 | h1
  · exact hpre x h1
  · exact ht x h1

lemma strAt_zero (b : List Char) : strAt b 0 = cstr b := by
  simp [strAt]

/-- Contents of the first cwdlen buffer bytes after storing byte c at the
separator index, for a buffer carrying the committed cwd prefix (the slash
restore of abspath_ and the NUL store of vfs_getcwd are the two instances). -/
lemma take_cwdlen_after_set (buffer cwd : List Char) (cwdlen : Nat) (c : Char)
    (hc1 : 1 ≤ cwdlen) (hclen : cwdlen ≤ buffer.length)
    (hbuf : buffer.take (cwdlen - 1) = cwd.take (cwdlen - 1)) :
    (setByte buffer (cwdlen - 1) c).take cwdlen = cwd.take (cwdlen - 1) ++ [c] := by
  apply List.ext_getElem?
  intro n
  rw [List.getElem?_take, List.getElem?_append, getElem?_setByte]
  have hlenA : (cwd.take (cwdlen - 1)).length = min (cwdlen - 1) cwd.length := by
    simp [List.length_take]
  by_cases hn : n < cwdlen
  · rw [if_pos hn]
    by_cases hn1 : n < cwdlen - 1
    · have hne : ¬ (cwdlen - 1 = n ∧ cwdlen - 1 < buffer.length) := by
        rintro ⟨he, _⟩; omega
      rw [if_neg hne]
      have hcl : n < (cwd.take (cwdlen - 1)).length := by
        have h3 := congrArg List.length hbuf
        simp [List.length_take] at h3 ⊢
        omega
      rw [if_pos hcl, List.getElem?_take, if_pos hn1]
      exact getElem?_of_take_eq buffer cwd (cwdlen - 1) n hbuf hn1
    · have hn2 : n = cwdlen - 1 := by omega
      subst hn2
      rw [if_pos ⟨rfl, by omega⟩]
      have hcl : ¬ (cwdlen - 1 < (cwd.take (cwdlen - 1)).length) := by
        simp [List.length_take]
      rw [if_neg hcl]
      have h4 : (cwd.take (cwdlen - 1)).length ≤ cwdlen - 1 := by
        simp [List.length_take]
      have h5 : ∀ m, ([c] : List Char)[m]? = if m = 0 then some c else none := by
        intro m; cases m <;> simp
      rw [h5]
      have h6 : cwdlen - 1 - (cwd.take (cwdlen - 1)).length = 0 := by
        have h3 := congrArg List.length hbuf
        simp [List.length_take] at h3
        omega
      rw [h6, if_pos rfl]
  · rw [if_neg hn]
    have h7 : ¬ n < (cwd.take (cwdlen - 1)).length := by
      simp [List.length_take]; omega
    rw [if_neg h7]
    have h8 : ([c] : List Char)[n - (cwd.take (cwdlen - 1)).length]? = none := by
      apply List.getElem?_eq_none
      simp [List.length_take]
      omega
    rw [h8]

/-- Taking the root prefix of the committed-cwd-plus-slash bytes yields the
root bytes of the cwd. -/
lemma pre_take_root (cwd : List Char) (rootlen cwdlen : Nat)
    (h1 : 1 ≤ rootlen) (h2 : rootlen ≤ cwdlen) (hcwd : cwd.length = cwdlen)
    (hlast : cwd[cwdlen - 1]? = some '/') :
    (cwd.take (cwdlen - 1) ++ ['/']).take rootlen = cwd.take rootlen := by
  apply List.ext_getElem?
  intro n
  rw [List.getElem?_take, List.getElem?_take, List.getElem?_append]
  have hlenA : (cwd.take (cwdlen - 1)).length = cwdlen - 1 := by
    simp [List.length_take]; omega
  by_cases hn : n < rootlen
  · rw [if_pos hn, if_pos hn, hlenA]
    by_cases hn1 : n < cwdlen - 1
    · rw [if_pos hn1, List.getElem?_take, if_pos hn1]
    · have hn2 : n = cwdlen - 1 := by omega
      subst hn2
      rw [if_neg hn1]
      have h5 : cwdlen - 1 - (cwdlen - 1) = 0 := by omega
      rw [h5]
      simp [hlast.symm]
  · rw [if_neg hn, if_neg hn]

/-- C1: confinement of successful cwd-limited resolution.  Whenever abspath_
with limit_to_cwd = true succeeds, the resolved path string keeps the root
bytes of the committed cwd as a prefix and is never shorter than root_len (so
no sequence of dot-dot segments in the client path walks below the root), and
the buffer bytes before the cwd separator still hold the committed cwd. -/
theorem resolve_confined (v : Vfs) (buffer cwd path : List Char) (cap : Nat)
    (h1 : 1 ≤ v.rootlen) (h2 : v.rootlen ≤ v.cwdlen)
    (hblen : buffer.length = cap)
    (hcwd : cwd.length = v.cwdlen) (hnul : NUL ∉ cwd)
    (hlast : cwd[v.cwdlen - 1]? = some '/')
    (hbuf : buffer.take (v.cwdlen - 1) = cwd.take (v.cwdlen - 1))
    (hpnul : NUL ∉ path)
    (hok : (abspath_ v buffer cap path true).1 = none) :
    (strAt (abspath_ v buffer cap path true).2 0).take v.rootlen = cwd.take v.rootlen ∧
    v.rootlen ≤ (strAt (abspath_ v buffer cap path true).2 0).length ∧
    (abspath_ v buffer cap path true).2.take (v.cwdlen - 1) = cwd.take (v.cwdlen - 1) := by
  by_cases hcap : cap < v.cwdlen + path.length + 1
  · have hbad : (abspath_ v buffer cap path true).1 = some AbsErr.tooLong := by
      simp [abspath_, hcap]
    rw [hok] at hbad
    exact absurd hbad (by simp)
  -- shared facts
  have hc1 : 1 ≤ v.cwdlen := le_trans h1 h2
  have hclen : v.cwdlen ≤ buffer.length := by omega
  have hpreT := take_cwdlen_after_set buffer cwd v.cwdlen '/' hc1 hclen hbuf
  have hprelen : (cwd.take (v.cwdlen - 1)).length = v.cwdlen - 1 := by
    simp [List.length_take]; omega
  have hpnn : ∀ x ∈ cwd.take (v.cwdlen - 1) ++ ['/'], x ≠ NUL := by
    intro x hx
    rcases List.mem_append.mp hx with h3 | h3
    · exact fun he => hnul (he ▸ List.take_subset _ _ h3)
    · simp at h3
      subst h3
      decide
  have hroot := pre_take_root cwd v.rootlen v.cwdlen h1 h2 hcwd hlast
  by_cases hsl : path[0]? = some '/'
  · -- absolute client path
    set k := v.cwdlen - v.rootlen with hkdef
    have hred : abspath_ v buffer cap path true =
        (if path.length < k
            ∨ ((setByte buffer (v.cwdlen - 1) '/').drop (v.rootlen - 1)).take k ≠ path.take k
            ∨ (path.getD k NUL ≠ NUL ∧ path.getD k NUL ≠ '/') then
          (some AbsErr.escapes, setByte buffer (v.cwdlen - 1) '/')
        else
          (none, normAt (writeBytes (setByte buffer (v.cwdlen - 1) '/') (v.cwdlen - 1)
            (path.drop k ++ [NUL])) v.cwdlen)) := by
      simp [abspath_, hcap, hsl]
    by_cases hcond : (path.length < k
        ∨ ((setByte buffer (v.cwdlen - 1) '/').drop (v.rootlen - 1)).take k ≠ path.take k
        ∨ (path.getD k NUL ≠ NUL ∧ path.getD k NUL ≠ '/'))
    · have hbad : (abspath_ v buffer cap path true).1 = some AbsErr.escapes := by
        rw [hred, if_pos hcond]
      rw [hok] at hbad
      exact absurd hbad (by simp)
    · have hres : (abspath_ v buffer cap path true).2 =
          normAt (writeBytes (setByte buffer (v.cwdlen - 1) '/') (v.cwdlen - 1)
            (path.drop k ++ [NUL])) v.cwdlen := by
        rw [hred, if_neg hcond]
      push_neg at hcond
      obtain ⟨hlk, hsegeq, hnext⟩ := hcond
      set b := writeBytes (setByte buffer (v.cwdlen - 1) '/') (v.cwdlen - 1)
        (path.drop k ++ [NUL]) with hbdef
      have hsblen : (setByte buffer (v.cwdlen - 1) '/').length = cap := by
        rw [length_setByte, hblen]
      have hwlen : b.length = cap := by
        rw [hbdef, length_writeBytes]
        · exact hsblen
        · rw [hsblen]
          simp [List.length_drop]
          omega
      have hblen2 : v.cwdlen ≤ b.length := by omega
      -- the byte written at cwdlen - 1 is the head of the spliced source
      have hbyte : b[v.cwdlen - 1]? = (path.drop k ++ [NUL])[0]? := by
        rw [hbdef, getElem?_writeBytes _ _ _ (by omega)]
        rw [if_neg (by omega), if_pos (by simp)]
        simp
      have hbtake : b.take v.cwdlen = cwd.take (v.cwdlen - 1) ++ [(path.drop k ++ [NUL])[0]?.getD NUL] := by
        apply List.ext_getElem?
        intro n
        rw [List.getElem?_take, List.getElem?_append]
        by_cases hn : n < v.cwdlen
        · rw [if_pos hn]
          by_cases hn1 : n < v.cwdlen - 1
          · rw [if_pos (by rw [hprelen]; exact hn1), List.getElem?_take, if_pos hn1]
            rw [hbdef, getElem?_writeBytes _ _ _ (by omega), if_pos hn1, getElem?_setByte,
              if_neg (by rintro ⟨he, _⟩; omega)]
            exact getElem?_of_take_eq buffer cwd (v.cwdlen - 1) n hbuf hn1
          · have hn2 : n = v.cwdlen - 1 := by omega
            subst hn2
            rw [if_neg (by rw [hprelen]; omega), hprelen]
            have h5 : v.cwdlen - 1 - (v.cwdlen - 1) = 0 := by omega
            rw [h5, hbyte]
            rcases hq : (path.drop k ++ [NUL])[0]? with _ | c
            · exfalso
              rw [List.getElem?_eq_none_iff] at hq
              simp at hq
            · simp
        · rw [if_neg hn, if_neg (by rw [hprelen]; omega)]
          have h8 : n - (cwd.take (v.cwdlen - 1)).length ≠ 0 := by
            rw [hprelen]; omega
          rcases hm : n - (cwd.take (v.cwdlen - 1)).length with _ | m
          · exact absurd hm h8
          · simp
      -- case split on whether the splice source starts with a real byte
      rw [hres]
      by_cases hkl : k < path.length
      · -- non-degenerate: the written byte is the slash path[k]
        have hpk : path[k]? = some '/' := by
          rcases hq : path[k]? with _ | c
          · rw [List.getElem?_eq_none_iff] at hq; omega
          · have hgd : path.getD k NUL = c := by rw [List.getD_eq_getElem?_getD, hq]; rfl
            have hc : c ≠ NUL := fun he => hpnul (he ▸ List.getElem?_mem hq)
            have hcs := hnext (hgd ▸ hc)
            rw [hgd] at hcs
            rw [hcs]
        have hhead : (path.drop k ++ [NUL])[0]? = some '/' := by
          rw [List.getElem?_append, if_pos (by simp [List.length_drop]; omega),
            List.getElem?_drop]
          simpa using hpk
        rw [hhead] at hbtake
        simp only [Option.getD_some] at hbtake
        -- now the committed prefix with restored slash is NUL-free
        have hT := take_normAt b v.cwdlen hblen2
        have hdec : strAt (normAt b v.cwdlen) 0 =
            (cwd.take (v.cwdlen - 1) ++ ['/']) ++ normalize_path (strAt b v.cwdlen) := by
          rw [strAt_zero]
          have hshape : normAt b v.cwdlen = (cwd.take (v.cwdlen - 1) ++ ['/']) ++
              normalize_path (strAt b v.cwdlen) ++ [NUL] ++
              b.drop (v.cwdlen + (normalize_path (strAt b v.cwdlen)).length + 1) := by
            simp [normAt, hbtake]
          rw [hshape]
          exact cstr_decomp _ _ _ hpnn (normalize_nul_free _ (strAt_nul_free b v.cwdlen))
        refine ⟨?_, ?_, ?_⟩
        · rw [hdec, List.take_append_of_le_length (by simp [hprelen]; omega), hroot]
        · rw [hdec]
          simp [hprelen]
          omega
        · rw [show (normAt b v.cwdlen).take (v.cwdlen - 1) =
              ((normAt b v.cwdlen).take v.cwdlen).take (v.cwdlen - 1) by
              rw [List.take_take]; congr 1; omega]
          rw [hT, hbtake, List.take_append_of_le_length (by rw [hprelen]),
            List.take_take, min_self]
      · -- degenerate: the client path equals the virtual cwd, the written byte is NUL
        have hkeq : k = path.length := by omega
        have hhead : (path.drop k ++ [NUL])[0]? = some NUL := by
          rw [List.getElem?_append]
          have : (path.drop k).length = 0 := by simp [List.length_drop]; omega
          rw [if_neg (by omega)]
          rw [this]
          simp
        rw [hhead] at hbtake
        simp only [Option.getD_some] at hbtake
        -- the path is nonempty and absolute, so k is at least 1
        have hlen1 : 1 ≤ path.length := by
          rcases path with _ | ⟨c, rest⟩
          · simp at hsl
          · simp
        have hk1 : 1 ≤ k := by omega
        have hT := take_normAt b v.cwdlen hblen2
        have hdec : strAt (normAt b v.cwdlen) 0 = cwd.take (v.cwdlen - 1) := by
          rw [strAt_zero]
          have hshape : normAt b v.cwdlen = cwd.take (v.cwdlen - 1) ++
              (NUL :: (normalize_path (strAt b v.cwdlen) ++ [NUL] ++
              b.drop (v.cwdlen + (normalize_path (strAt b v.cwdlen)).length + 1))) := by
            simp [normAt, hbtake]
          rw [hshape, cstr_append_nul]
          intro x hx
          exact fun he => hnul (he ▸ List.take_subset _ _ hx)
        refine ⟨?_, ?_, ?_⟩
        · rw [hdec, List.take_take, show min v.rootlen (v.cwdlen - 1) = v.rootlen by omega]
        · rw [hdec, hprelen]
          omega
        · rw [show (normAt b v.cwdlen).take (v.cwdlen - 1) =
              ((normAt b v.cwdlen).take v.cwdlen).take (v.cwdlen - 1) by
              rw [List.take_take]; congr 1; omega]
          rw [hT, hbtake, List.take_append_of_le_length (by rw [hprelen]),
            List.take_take, min_self]
  · -- relative client path, appended after the cwd
    have hres : (abspath_ v buffer cap path true).2 =
        normAt (writeBytes (setByte buffer (v.cwdlen - 1) '/') v.cwdlen
          (path ++ [NUL])) v.cwdlen := by
      simp [abspath_, hcap, hsl]
    set b := writeBytes (setByte buffer (v.cwdlen - 1) '/') v.cwdlen (path ++ [NUL])
      with hbdef
    have hsblen : (setByte buffer (v.cwdlen - 1) '/').length = cap := by
      rw [length_setByte, hblen]
    have hwlen : b.length = cap := by
      rw [hbdef, length_writeBytes]
      · exact hsblen
      · rw [hsblen]; simp; omega
    have hblen2 : v.cwdlen ≤ b.length := by omega
    have hbtake : b.take v.cwdlen = cwd.take (v.cwdlen - 1) ++ ['/'] := by
      rw [hbdef, take_writeBytes _ _ _ (by rw [hsblen]; omega), hpreT]
    rw [hres]
    have hT := take_normAt b v.cwdlen hblen2
    have hdec : strAt (normAt b v.cwdlen) 0 =
        (cwd.take (v.cwdlen - 1) ++ ['/']) ++ normalize_path (strAt b v.cwdlen) := by
      rw [strAt_zero]
      have hshape : normAt b v.cwdlen = (cwd.take (v.cwdlen - 1) ++ ['/']) ++
          normalize_path (strAt b v.cwdlen) ++ [NUL] ++
          b.drop (v.cwdlen + (normalize_path (strAt b v.cwdlen)).length + 1) := by
        simp [normAt, hbtake]
      rw [hshape]
      exact cstr_decomp _ _ _ hpnn (normalize_nul_free _ (strAt_nul_free b v.cwdlen))
    refine ⟨?_, ?_, ?_⟩
    · rw [hdec, List.take_append_of_le_length (by simp [hprelen]; omega), hroot]
    · rw [hdec]
      simp [hprelen]
      omega
    · rw [show (normAt b v.cwdlen).take (v.cwdlen - 1) =
          ((normAt b v.cwdlen).take v.cwdlen).take (v.cwdlen - 1) by
          rw [List.take_take]; congr 1; omega]
      rw [hT, hbtake, List.take_append_of_le_length (by rw [hprelen]),
        List.take_take, min_self]

/-- C1 witness: confinement at a concrete resolution (relative path x with
cwd /data/sub/). -/
theorem resolve_confined_witness :
    (strAt (abspath_ vfsSub vfsSub.file1 20 ['x'] true).2 0).take vfsSub.rootlen =
      cwdSub.take vfsSub.rootlen ∧
    vfsSub.rootlen ≤ (strAt (abspath_ vfsSub vfsSub.file1 20 ['x'] true).2 0).length ∧
    (abspath_ vfsSub vfsSub.file1 20 ['x'] true).2.take (vfsSub.cwdlen - 1) =
      cwdSub.take (vfsSub.cwdlen - 1) :=
  resolve_confined vfsSub vfsSub.file1 cwdSub ['x'] 20 (by decide) (by decide) (by decide)
    (by decide) (by decide) (by decide) (by decide) (by decide) (by decide)

/-! Claim C10. -/

lemma writeBytes_eq_of_agree (b1 b2 src : List Char) (off t : Nat)
    (hlen : b1.length = b2.length)
    (hag : ∀ m, m ≠ t → b1[m]? = b2[m]?)
    (h1t : off ≤ t) (h2t : t < off + src.length) (hoff : off ≤ b1.length) :
    writeBytes b1 off src = writeBytes b2 off src := by
  apply List.ext_getElem?
  intro m
  rw [getElem?_writeBytes _ _ _ hoff, getElem?_writeBytes _ _ _ (hlen ▸ hoff)]
  by_cases hm1 : m < off
  · rw [if_pos hm1, if_pos hm1]
    exact hag m (by omega)
  · rw [if_neg hm1, if_neg hm1]
    by_cases hm2 : m < off + src.length
    · rw [if_pos hm2, if_pos hm2]
    · rw [if_neg hm2, if_neg hm2]
      exact hag m (by omega)

lemma setByte_eq_of_agree (b1 b2 : List Char) (i : Nat) (c : Char)
    (hlen : b1.length = b2.length)
    (hag : ∀ m, m ≠ i → b1[m]? = b2[m]?) :
    setByte b1 i c = setByte b2 i c := by
  apply List.ext_getElem?
  intro m
  rw [getElem?_setByte, getElem?_setByte, hlen]
  by_cases hm : i = m
  · subst hm
    by_cases hi : i < b2.length
    · rw [if_pos ⟨rfl, hi⟩, if_pos ⟨rfl, hi⟩]
    · rw [if_neg (by tauto), if_neg (by tauto)]
      rw [List.getElem?_eq_none (by omega), List.getElem?_eq_none (by omega)]
  · rw [if_neg (by tauto), if_neg (by tauto)]
    exact hag m (Ne.symm hm)

/-- Resolution reads the buffer only through bytes it first overwrites or bytes
below the cwd separator: two buffers that agree everywhere except at the
separator index (which the resolver restores first) or — when the cwd equals
the root — at the byte just after the prefix (which every successful splice
overwrites) produce the same resolution outcome, and the same final buffer on
success. -/
lemma abspath_congr_buffer (v : Vfs) (b1 b2 : List Char) (cap : Nat) (path : List Char)
    (limit : Bool) (h1 : 1 ≤ v.rootlen) (h2 : v.rootlen ≤ v.cwdlen)
    (hb1 : b1.length = cap)
    (hlen : b1.length = b2.length) (t : Nat)
    (ht : t = v.cwdlen - 1 ∨ (t = v.cwdlen ∧ v.rootlen = v.cwdlen))
    (hag : ∀ m, m ≠ t → b1[m]? = b2[m]?) :
    (abspath_ v b1 cap path limit).1 = (abspath_ v b2 cap path limit).1 ∧
    ((abspath_ v b1 cap path limit).1 = none →
      (abspath_ v b1 cap path limit).2 = (abspath_ v b2 cap path limit).2) := by
  by_cases hcap : cap < v.cwdlen + path.length + 1
  · constructor
    · simp [abspath_, hcap]
    · intro h
      have hbad : (abspath_ v b1 cap path limit).1 = some AbsErr.tooLong := by
        simp [abspath_, hcap]
      rw [h] at hbad
      exact absurd hbad (by simp)
  rcases ht with ht | ⟨ht, hrc⟩
  · -- the buffers differ at most at the separator byte, which is restored first
    have hset : setByte b1 (v.cwdlen - 1) '/' = setByte b2 (v.cwdlen - 1) '/' := by
      apply List.ext_getElem?
      intro m
      rw [getElem?_setByte, getElem?_setByte, hlen]
      by_cases hm : v.cwdlen - 1 = m
      · subst hm
        by_cases hi : v.cwdlen - 1 < b2.length
        · rw [if_pos ⟨rfl, hi⟩, if_pos ⟨rfl, hi⟩]
        · rw [if_neg (by tauto), if_neg (by tauto)]
          rw [List.getElem?_eq_none (by omega), List.getElem?_eq_none (by omega)]
      · rw [if_neg (by tauto), if_neg (by tauto)]
        exact hag m (by omega)
    constructor
    · simp only [abspath_, if_neg hcap, hset]
    · intro _
      simp only [abspath_, if_neg hcap, hset]
  · -- cwd equals root: the buffers differ at most at the byte after the prefix,
    -- which every successful write covers
    subst ht
    have hk0 : v.cwdlen - v.rootlen = 0 := by omega
    have hag2 : ∀ m, m ≠ v.cwdlen →
        (setByte b1 (v.cwdlen - 1) '/')[m]? = (setByte b2 (v.cwdlen - 1) '/')[m]? := by
      intro m hm
      rw [getElem?_setByte, getElem?_setByte, hlen]
      by_cases hm2 : v.cwdlen - 1 = m
      · subst hm2
        by_cases hi : v.cwdlen - 1 < b2.length
        · rw [if_pos ⟨rfl, hi⟩, if_pos ⟨rfl, hi⟩]
        · rw [if_neg (by tauto), if_neg (by tauto)]
          rw [List.getElem?_eq_none (by omega), List.getElem?_eq_none (by omega)]
      · rw [if_neg (by tauto), if_neg (by tauto)]
        exact hag m hm
    have hslen : (setByte b1 (v.cwdlen - 1) '/').length = (setByte b2 (v.cwdlen - 1) '/').length := by
      rw [length_setByte, length_setByte, hlen]
    by_cases hsl : path[0]? = some '/'
    · have hlen1 : 1 ≤ path.length := by
        rcases path with _ | ⟨c, rest⟩
        · simp at hsl
        · simp
      by_cases hlimit : limit = true
      · subst hlimit
        have hred1 : abspath_ v b1 cap path true =
            (if path.length < v.cwdlen - v.rootlen
                ∨ ((setByte b1 (v.cwdlen - 1) '/').drop (v.rootlen - 1)).take
                    (v.cwdlen - v.rootlen) ≠ path.take (v.cwdlen - v.rootlen)
                ∨ (path.getD (v.cwdlen - v.rootlen) NUL ≠ NUL ∧
                   path.getD (v.cwdlen - v.rootlen) NUL ≠ '/') then
              (some AbsErr.escapes, setByte b1 (v.cwdlen - 1) '/')
            else
              (none, normAt (writeBytes (setByte b1 (v.cwdlen - 1) '/') (v.cwdlen - 1)
                (path.drop (v.cwdlen - v.rootlen) ++ [NUL])) v.cwdlen)) := by
          simp [abspath_, hcap, hsl]
        have hred2 : abspath_ v b2 cap path true =
            (if path.length < v.cwdlen - v.rootlen
                ∨ ((setByte b2 (v.cwdlen - 1) '/').drop (v.rootlen - 1)).take
                    (v.cwdlen - v.rootlen) ≠ path.take (v.cwdlen - v.rootlen)
                ∨ (path.getD (v.cwdlen - v.rootlen) NUL ≠ NUL ∧
                   path.getD (v.cwdlen - v.rootlen) NUL ≠ '/') then
              (some AbsErr.escapes, setByte b2 (v.cwdlen - 1) '/')
            else
              (none, normAt (writeBytes (setByte b2 (v.cwdlen - 1) '/') (v.cwdlen - 1)
                (path.drop (v.cwdlen - v.rootlen) ++ [NUL])) v.cwdlen)) := by
          simp [abspath_, hcap, hsl]
        -- with cwd equal to root the confinement test compares zero bytes, so
        -- its outcome does not depend on the buffer
        have hcond : (path.length < v.cwdlen - v.rootlen
            ∨ ((setByte b1 (v.cwdlen - 1) '/').drop (v.rootlen - 1)).take (v.cwdlen - v.rootlen)
                ≠ path.take (v.cwdlen - v.rootlen)
            ∨ (path.getD (v.cwdlen - v.rootlen) NUL ≠ NUL ∧
               path.getD (v.cwdlen - v.rootlen) NUL ≠ '/')) ↔
            (path.length < v.cwdlen - v.rootlen
            ∨ ((setByte b2 (v.cwdlen - 1) '/').drop (v.rootlen - 1)).take (v.cwdlen - v.rootlen)
                ≠ path.take (v.cwdlen - v.rootlen)
            ∨ (path.getD (v.cwdlen - v.rootlen) NUL ≠ NUL ∧
               path.getD (v.cwdlen - v.rootlen) NUL ≠ '/')) := by
          rw [hk0]
          simp
        by_cases hesc : (path.length < v.cwdlen - v.rootlen
            ∨ ((setByte b1 (v.cwdlen - 1) '/').drop (v.rootlen - 1)).take (v.cwdlen - v.rootlen)
                ≠ path.take (v.cwdlen - v.rootlen)
            ∨ (path.getD (v.cwdlen - v.rootlen) NUL ≠ NUL ∧
               path.getD (v.cwdlen - v.rootlen) NUL ≠ '/'))
        · rw [hred1, hred2, if_pos hesc, if_pos (hcond.mp hesc)]
          exact ⟨rfl, fun h => absurd h (by simp)⟩
        · have hw : writeBytes (setByte b1 (v.cwdlen - 1) '/') (v.cwdlen - 1)
              (path.drop (v.cwdlen - v.rootlen) ++ [NUL]) =
              writeBytes (setByte b2 (v.cwdlen - 1) '/') (v.cwdlen - 1)
              (path.drop (v.cwdlen - v.rootlen) ++ [NUL]) := by
            apply writeBytes_eq_of_agree _ _ _ _ v.cwdlen hslen hag2 (by omega)
            · rw [hk0]
              simp [List.length_drop]
              omega
            · rw [length_setByte]
              omega
          rw [hred1, hred2, if_neg hesc, if_neg (fun h => hesc (hcond.mpr h)), hw]
          exact ⟨rfl, fun _ => rfl⟩
      · have hlf : limit = false := by
          cases limit
          · rfl
          · exact absurd rfl hlimit
        subst hlf
        have hw : writeBytes (setByte b1 (v.cwdlen - 1) '/') (v.rootlen - 1) (path ++ [NUL]) =
            writeBytes (setByte b2 (v.cwdlen - 1) '/') (v.rootlen - 1) (path ++ [NUL]) := by
          apply writeBytes_eq_of_agree _ _ _ _ v.cwdlen hslen hag2 (by omega)
          · simp
            omega
          · rw [length_setByte]
            omega
        have hred1 : abspath_ v b1 cap path false =
            (none, normAt (writeBytes (setByte b1 (v.cwdlen - 1) '/') (v.rootlen - 1)
              (path ++ [NUL])) v.rootlen) := by
          simp [abspath_, hcap, hsl]
        have hred2 : abspath_ v b2 cap path false =
            (none, normAt (writeBytes (setByte b2 (v.cwdlen - 1) '/') (v.rootlen - 1)
              (path ++ [NUL])) v.rootlen) := by
          simp [abspath_, hcap, hsl]
        rw [hred1, hred2, hw]
        exact ⟨rfl, fun _ => rfl⟩
    · have hw : writeBytes (setByte b1 (v.cwdlen - 1) '/') v.cwdlen (path ++ [NUL]) =
          writeBytes (setByte b2 (v.cwdlen - 1) '/') v.cwdlen (path ++ [NUL]) := by
        apply writeBytes_eq_of_agree _ _ _ _ v.cwdlen hslen hag2 (le_refl _)
        · simp
        · rw [length_setByte]
          omega
      have hred1 : abspath_ v b1 cap path limit =
          (none, normAt (writeBytes (setByte b1 (v.cwdlen - 1) '/') v.cwdlen
            (path ++ [NUL])) (if limit then v.cwdlen else v.rootlen)) := by
        simp [abspath_, hcap, hsl]
      have hred2 : abspath_ v b2 cap path limit =
          (none, normAt (writeBytes (setByte b2 (v.cwdlen - 1) '/') v.cwdlen
            (path ++ [NUL])) (if limit then v.cwdlen else v.rootlen)) := by
        simp [abspath_, hcap, hsl]
      rw [hred1, hred2, hw]
      exact ⟨rfl, fun _ => rfl⟩

/-- C10: vfs_getcwd mutates buffer A only by writing a single NUL byte at the
cwd boundary (index cwdlen - 1 when the cwd is deeper than root, index cwdlen
otherwise); two consecutive calls return equal strings; and, because every
resolve first restores the separator and overwrites the byte after the prefix,
a resolve performed after vfs_getcwd has the same outcome as the same resolve
performed without it, with identical buffer contents on success. -/
theorem getcwd_frame (v : Vfs) (cap : Nat)
    (h1 : 1 ≤ v.rootlen) (h2 : v.rootlen ≤ v.cwdlen)
    (hcaple : v.cwdlen + 1 ≤ cap) (hblen : v.file1.length = cap) :
    ((vfs_getcwd v).2.file2 = v.file2 ∧ (vfs_getcwd v).2.rootlen = v.rootlen ∧
     (vfs_getcwd v).2.cwdlen = v.cwdlen ∧
     (vfs_getcwd v).2.file1 =
       setByte v.file1 (if v.rootlen < v.cwdlen then v.cwdlen - 1 else v.cwdlen) NUL) ∧
    (vfs_getcwd (vfs_getcwd v).2).1 = (vfs_getcwd v).1 ∧
    (∀ (path : List Char) (limit : Bool),
      (abspath_ (vfs_getcwd v).2 (vfs_getcwd v).2.file1 cap path limit).1 =
        (abspath_ v v.file1 cap path limit).1 ∧
      ((abspath_ v v.file1 cap path limit).1 = none →
        (abspath_ (vfs_getcwd v).2 (vfs_getcwd v).2.file1 cap path limit).2 =
          (abspath_ v v.file1 cap path limit).2)) := by
  refine ⟨⟨rfl, rfl, rfl, rfl⟩, ?_, ?_⟩
  · simp [vfs_getcwd, setByte, List.set_set]
  · intro path limit
    set idx := if v.rootlen < v.cwdlen then v.cwdlen - 1 else v.cwdlen with hidx
    have hv2 : (vfs_getcwd v).2 = { v with file1 := setByte v.file1 idx NUL } := rfl
    have hlen2 : (setByte v.file1 idx NUL).length = v.file1.length := length_setByte _ _ _
    have hag : ∀ m, m ≠ idx → (setByte v.file1 idx NUL)[m]? = v.file1[m]? := by
      intro m hm
      rw [getElem?_setByte, if_neg (by tauto)]
    have ht : idx = v.cwdlen - 1 ∨ (idx = v.cwdlen ∧ v.rootlen = v.cwdlen) := by
      rw [hidx]
      by_cases hlt : v.rootlen < v.cwdlen
      · left; rw [if_pos hlt]
      · right; rw [if_neg hlt]; omega
    have hcongr := abspath_congr_buffer v (setByte v.file1 idx NUL) v.file1 cap path limit
      h1 h2 (hlen2.trans hblen) hlen2 idx ht hag
    have hform : abspath_ (vfs_getcwd v).2 (vfs_getcwd v).2.file1 cap path limit =
        abspath_ v (setByte v.file1 idx NUL) cap path limit := by
      rw [hv2]
      rfl
    rw [hform]
    exact ⟨hcongr.1, fun h => hcongr.2 ((hcongr.1.trans h))⟩

/-- C10 witness at the concrete session with cwd /data/sub/. -/
theorem getcwd_frame_witness :
    (vfs_getcwd (vfs_getcwd vfsSub).2).1 = (vfs_getcwd vfsSub).1 ∧
    (abspath_ (vfs_getcwd vfsSub).2 (vfs_getcwd vfsSub).2.file1 20 ['x'] true).1 =
      (abspath_ vfsSub vfsSub.file1 20 ['x'] true).1 := by
  have h := getcwd_frame vfsSub 20 (by decide) (by decide) (by decide) (by decide)
  exact ⟨h.2.1, (h.2.2 ['x'] true).1⟩

/-! Claim C6. -/

lemma length_normAt_ge (b : List Char) (off : Nat) : b.length ≤ (normAt b off).length := by
  simp only [normAt, List.length_append, List.length_take, List.length_drop,
    List.length_cons, List.length_nil]
  omega

/-- Branch form of abspath_ for an absolute path in cwd-limited mode, with the
capacity check already passed. -/
lemma abspath_true_red (v : Vfs) (buffer : List Char) (cap : Nat) (path : List Char)
    (hcap : ¬ cap < v.cwdlen + path.length + 1) (hsl : path[0]? = some '/') :
    abspath_ v buffer cap path true =
      (if path.length < v.cwdlen - v.rootlen
          ∨ ((setByte buffer (v.cwdlen - 1) '/').drop (v.rootlen - 1)).take (v.cwdlen - v.rootlen)
              ≠ path.take (v.cwdlen - v.rootlen)
          ∨ (path.getD (v.cwdlen - v.rootlen) NUL ≠ NUL ∧
             path.getD (v.cwdlen - v.rootlen) NUL ≠ '/') then
        (some AbsErr.escapes, setByte buffer (v.cwdlen - 1) '/')
      else
        (none, normAt (writeBytes (setByte buffer (v.cwdlen - 1) '/') (v.cwdlen - 1)
          (path.drop (v.cwdlen - v.rootlen) ++ [NUL])) v.cwdlen)) := by
  simp [abspath_, hcap, hsl]

lemma abspath_success_length (v : Vfs) (buffer : List Char) (cap : Nat) (path : List Char)
    (limit : Bool) (h1 : 1 ≤ v.rootlen) (h2 : v.rootlen ≤ v.cwdlen)
    (hblen : buffer.length = cap)
    (hok : (abspath_ v buffer cap path limit).1 = none) :
    cap ≤ (abspath_ v buffer cap path limit).2.length := by
  by_cases hcap : cap < v.cwdlen + path.length + 1
  · have hbad : (abspath_ v buffer cap path limit).1 = some AbsErr.tooLong := by
      simp [abspath_, hcap]
    rw [hok] at hbad
    exact absurd hbad (by simp)
  have hslen : (setByte buffer (v.cwdlen - 1) '/').length = cap := by
    rw [length_setByte, hblen]
  by_cases hsl : path[0]? = some '/'
  · by_cases hlimit : limit = true
    · subst hlimit
      by_cases hesc : (path.length < v.cwdlen - v.rootlen
          ∨ ((setByte buffer (v.cwdlen - 1) '/').drop (v.rootlen - 1)).take (v.cwdlen - v.rootlen)
              ≠ path.take (v.cwdlen - v.rootlen)
          ∨ (path.getD (v.cwdlen - v.rootlen) NUL ≠ NUL ∧
             path.getD (v.cwdlen - v.rootlen) NUL ≠ '/'))
      · have hbad : (abspath_ v buffer cap path true).1 = some AbsErr.escapes := by
          rw [abspath_true_red v buffer cap path hcap hsl, if_pos hesc]
        rw [hok] at hbad
        exact absurd hbad (by simp)
      · have hres : (abspath_ v buffer cap path true).2 =
            normAt (writeBytes (setByte buffer (v.cwdlen - 1) '/') (v.cwdlen - 1)
              (path.drop (v.cwdlen - v.rootlen) ++ [NUL])) v.cwdlen := by
          rw [abspath_true_red v buffer cap path hcap hsl, if_neg hesc]
        rw [hres]
        have hwl : (writeBytes (setByte buffer (v.cwdlen - 1) '/') (v.cwdlen - 1)
            (path.drop (v.cwdlen - v.rootlen) ++ [NUL])).length = cap := by
          rw [length_writeBytes]
          · exact hslen
          · rw [hslen]
            simp [List.length_drop]
            omega
        calc cap = (writeBytes (setByte buffer (v.cwdlen - 1) '/') (v.cwdlen - 1)
            (path.drop (v.cwdlen - v.rootlen) ++ [NUL])).length := hwl.symm
          _ ≤ _ := length_normAt_ge _ _
    · have hlf : limit = false := by
        cases limit
        · rfl
        · exact absurd rfl hlimit
      subst hlf
      have hres : (abspath_ v buffer cap path false).2 =
          normAt (writeBytes (setByte buffer (v.cwdlen - 1) '/') (v.rootlen - 1)
            (path ++ [NUL])) v.rootlen := by
        simp [abspath_, hcap, hsl]
      rw [hres]
      have hwl : (writeBytes (setByte buffer (v.cwdlen - 1) '/') (v.rootlen - 1)
          (path ++ [NUL])).length = cap := by
        rw [length_writeBytes]
        · exact hslen
        · rw [hslen]
          simp
          omega
      calc cap = _ := hwl.symm
        _ ≤ _ := length_normAt_ge _ _
  · have hres : (abspath_ v buffer cap path limit).2 =
        normAt (writeBytes (setByte buffer (v.cwdlen - 1) '/') v.cwdlen (path ++ [NUL]))
          (if limit then v.cwdlen else v.rootlen) := by
      simp [abspath_, hcap, hsl]
    rw [hres]
    have hwl : (writeBytes (setByte buffer (v.cwdlen - 1) '/') v.cwdlen
        (path ++ [NUL])).length = cap := by
      rw [length_writeBytes]
      · exact hslen
      · rw [hslen]
        simp
        omega
    calc cap = _ := hwl.symm
      _ ≤ _ := length_normAt_ge _ _

lemma abspath_false_fail_eq (v : Vfs) (buffer : List Char) (cap : Nat) (path : List Char)
    (hfail : (abspath_ v buffer cap path false).1 ≠ none) :
    abspath_ v buffer cap path false = (some AbsErr.tooLong, buffer) := by
  by_cases hcap : cap < v.cwdlen + path.length + 1
  · simp [abspath_, hcap]
  · exfalso
    apply hfail
    by_cases hsl : path[0]? = some '/'
    · simp [abspath_, hcap, hsl]
    · simp [abspath_, hcap, hsl]

/-- Value returned by vfs_getcwd on a session holding the committed cwd: the
cwd relative to root, without trailing slash when deeper than root, the single
separator otherwise. -/
lemma getcwd_value (v : Vfs) (cwd : List Char)
    (h1 : 1 ≤ v.rootlen) (h2 : v.rootlen ≤ v.cwdlen)
    (hb1len : v.cwdlen + 1 ≤ v.file1.length)
    (hcwd : cwd.length = v.cwdlen) (hnul : NUL ∉ cwd)
    (hf1 : v.file1.take (v.cwdlen - 1) = cwd.take (v.cwdlen - 1))
    (hf1s : v.cwdlen = v.rootlen → v.file1[v.cwdlen - 1]? = some '/') :
    (vfs_getcwd v).1 = (cwd.take (v.cwdlen - 1)).drop (v.rootlen - 1) ++
      (if v.rootlen < v.cwdlen then [] else ['/']) := by
  have hanul : ∀ x ∈ (cwd.take (v.cwdlen - 1)).drop (v.rootlen - 1), x ≠ NUL := by
    intro x hx he
    exact hnul (he ▸ List.take_subset _ _ (List.drop_subset _ _ hx))
  by_cases hlt : v.rootlen < v.cwdlen
  · have hform : (vfs_getcwd v).1 = strAt (setByte v.file1 (v.cwdlen - 1) NUL)
        (v.rootlen - 1) := by
      simp [vfs_getcwd, hlt]
    rw [hform, if_pos hlt]
    have hsplit : setByte v.file1 (v.cwdlen - 1) NUL =
        (cwd.take (v.cwdlen - 1) ++ [NUL]) ++ (setByte v.file1 (v.cwdlen - 1) NUL).drop v.cwdlen := by
      conv_lhs => rw [← List.take_append_drop v.cwdlen (setByte v.file1 (v.cwdlen - 1) NUL)]
      rw [take_cwdlen_after_set v.file1 cwd v.cwdlen NUL (by omega) (by omega) hf1]
    rw [strAt, hsplit]
    have hpl : (cwd.take (v.cwdlen - 1)).length = v.cwdlen - 1 := by
      simp [List.length_take]; omega
    have hdrop : ((cwd.take (v.cwdlen - 1) ++ [NUL]) ++
        (setByte v.file1 (v.cwdlen - 1) NUL).drop v.cwdlen).drop (v.rootlen - 1) =
        (cwd.take (v.cwdlen - 1)).drop (v.rootlen - 1) ++
          ([NUL] ++ (setByte v.file1 (v.cwdlen - 1) NUL).drop v.cwdlen) := by
      rw [List.append_assoc, List.drop_append_of_le_length (by omega)]
    rw [hdrop]
    have h9 : (cwd.take (v.cwdlen - 1)).drop (v.rootlen - 1) ++
        ([NUL] ++ (setByte v.file1 (v.cwdlen - 1) NUL).drop v.cwdlen) =
        (cwd.take (v.cwdlen - 1)).drop (v.rootlen - 1) ++
        (NUL :: (setByte v.file1 (v.cwdlen - 1) NUL).drop v.cwdlen) := by
      simp
    rw [h9, cstr_append_nul _ _ hanul]
    simp
  · have hrc : v.rootlen = v.cwdlen := by omega
    have hform : (vfs_getcwd v).1 = strAt (setByte v.file1 v.cwdlen NUL)
        (v.rootlen - 1) := by
      simp [vfs_getcwd, hlt]
    rw [hform, if_neg hlt]
    have ha0 : (cwd.take (v.cwdlen - 1)).drop (v.rootlen - 1) = [] := by
      apply List.drop_eq_nil_of_le
      simp [List.length_take]
      omega
    rw [ha0]
    have hb0 : v.cwdlen - 1 < (setByte v.file1 v.cwdlen NUL).length := by
      rw [length_setByte]; omega
    have hb1 : v.cwdlen < (setByte v.file1 v.cwdlen NUL).length := by
      rw [length_setByte]; omega
    have hd1 : (setByte v.file1 v.cwdlen NUL).drop (v.rootlen - 1) =
        (setByte v.file1 v.cwdlen NUL)[v.cwdlen - 1] ::
        (setByte v.file1 v.cwdlen NUL).drop v.cwdlen := by
      have he : v.rootlen - 1 = v.cwdlen - 1 := by omega
      rw [he, List.drop_eq_getElem_cons hb0]
      have h5 : v.cwdlen - 1 + 1 = v.cwdlen := by omega
      rw [h5]
    have hd2 : (setByte v.file1 v.cwdlen NUL).drop v.cwdlen =
        (setByte v.file1 v.cwdlen NUL)[v.cwdlen] ::
        (setByte v.file1 v.cwdlen NUL).drop (v.cwdlen + 1) :=
      List.drop_eq_getElem_cons hb1
    have hv1 : (setByte v.file1 v.cwdlen NUL)[v.cwdlen - 1] = '/' := by
      have h3 : (setByte v.file1 v.cwdlen NUL)[v.cwdlen - 1]? = some '/' := by
        rw [getElem?_setByte, if_neg (by rintro ⟨he, _⟩; omega)]
        exact hf1s hrc.symm
      rw [List.getElem?_eq_getElem hb0] at h3
      exact Option.some_injective _ h3
    have hv2 : (setByte v.file1 v.cwdlen NUL)[v.cwdlen] = NUL := by
      have h3 : (setByte v.file1 v.cwdlen NUL)[v.cwdlen]? = some NUL := by
        rw [getElem?_setByte, if_pos ⟨rfl, by omega⟩]
      rw [List.getElem?_eq_getElem hb1] at h3
      exact Option.some_injective _ h3
    rw [strAt, hd1, hd2, hv1, hv2]
    simp [cstr, List.takeWhile_cons]
    decide

/-- Shape of buffer A after the rollback memcpy of vfs_chdir: the committed
prefix returns, with a NUL after it. -/
lemma restore_facts (v : Vfs) (cwd bx : List Char)
    (h1 : 1 ≤ v.rootlen) (h2 : v.rootlen ≤ v.cwdlen)
    (hb2len : v.cwdlen + 1 ≤ v.file2.length)
    (hbxlen : v.cwdlen + 1 ≤ bx.length)
    (hcwd : cwd.length = v.cwdlen)
    (hf2 : v.file2.take (v.cwdlen - 1) = cwd.take (v.cwdlen - 1))
    (hf2rs : v.cwdlen = v.rootlen → v.file2[v.cwdlen - 1]? = some '/') :
    (setByte (writeBytes bx 0 (v.file2.take v.cwdlen)) v.cwdlen NUL).take (v.cwdlen - 1) =
      cwd.take (v.cwdlen - 1) ∧
    (v.cwdlen = v.rootlen →
      (setByte (writeBytes bx 0 (v.file2.take v.cwdlen)) v.cwdlen NUL)[v.cwdlen - 1]? =
        some '/') ∧
    v.cwdlen + 1 ≤ (setByte (writeBytes bx 0 (v.file2.take v.cwdlen)) v.cwdlen NUL).length := by
  have hsrclen : (v.file2.take v.cwdlen).length = v.cwdlen := by
    simp [List.length_take]; omega
  have hwb : ∀ m, m < v.cwdlen →
      (writeBytes bx 0 (v.file2.take v.cwdlen))[m]? = v.file2[m]? := by
    intro m hm
    rw [getElem?_writeBytes _ _ _ (by omega), if_neg (by omega), hsrclen, if_pos (by omega)]
    rw [List.getElem?_take, if_pos (by omega)]
    simp
  have hwblen : (writeBytes bx 0 (v.file2.take v.cwdlen)).length = bx.length := by
    rw [length_writeBytes]
    rw [hsrclen]
    omega
  refine ⟨?_, ?_, ?_⟩
  · apply List.ext_getElem?
    intro n
    rw [List.getElem?_take, List.getElem?_take]
    by_cases hn : n < v.cwdlen - 1
    · rw [if_pos hn, if_pos hn, getElem?_setByte, if_neg (by rintro ⟨he, _⟩; omega), hwb n (by omega)]
      exact getElem?_of_take_eq v.file2 cwd (v.cwdlen - 1) n hf2 hn
    · rw [if_neg hn, if_neg hn]
  · intro hrc
    rw [getElem?_setByte, if_neg (by rintro ⟨he, _⟩; omega), hwb _ (by omega)]
    exact hf2rs hrc
  · rw [length_setByte, hwblen]
    omega

/-- C6: a failing vfs_chdir is transactional.  Whatever the failure reason
(resolution capacity, no room to append the separator, or validation failure),
the committed session state is untouched: the value observable through
vfs_getcwd is exactly what it was before the call, cwdlen and rootlen and
buffer B are unchanged, and both buffers still carry the committed cwd prefix
bytes (buffer A up to the separator position, whose byte is the separator or
the transient NUL of the rollback). -/
theorem chdir_failure_transactional (isDir : List Char → Bool) (v : Vfs) (cap : Nat)
    (path cwd : List Char)
    (h1 : 1 ≤ v.rootlen) (h2 : v.rootlen ≤ v.cwdlen)
    (hcaple : v.cwdlen + 1 ≤ cap)
    (hb1 : v.file1.length = cap) (hb2 : v.file2.length = cap)
    (hcwd : cwd.length = v.cwdlen) (hnul : NUL ∉ cwd)
    (hf1 : v.file1.take (v.cwdlen - 1) = cwd.take (v.cwdlen - 1))
    (hf1s : v.cwdlen = v.rootlen → v.file1[v.cwdlen - 1]? = some '/')
    (hf2 : v.file2.take (v.cwdlen - 1) = cwd.take (v.cwdlen - 1))
    (hf2rs : v.cwdlen = v.rootlen → v.file2[v.cwdlen - 1]? = some '/')
    (hfail : (vfs_chdir isDir v cap path).1 ≠ none) :
    (vfs_getcwd (vfs_chdir isDir v cap path).2).1 = (vfs_getcwd v).1 ∧
    (vfs_chdir isDir v cap path).2.cwdlen = v.cwdlen ∧
    (vfs_chdir isDir v cap path).2.rootlen = v.rootlen ∧
    (vfs_chdir isDir v cap path).2.file2 = v.file2 ∧
    (vfs_chdir isDir v cap path).2.file1.take (v.cwdlen - 1) = cwd.take (v.cwdlen - 1) ∧
    (vfs_chdir isDir v cap path).2.file2.take (v.cwdlen - 1) = cwd.take (v.cwdlen - 1) := by
  have hgv : (vfs_getcwd v).1 = (cwd.take (v.cwdlen - 1)).drop (v.rootlen - 1) ++
      (if v.rootlen < v.cwdlen then [] else ['/']) :=
    getcwd_value v cwd h1 h2 (by omega) hcwd hnul hf1 hf1s
  -- helper discharging all rollback branches
  have hrestore : ∀ bx : List Char, v.cwdlen + 1 ≤ bx.length →
      ∀ v2 : Vfs, v2 = { v with file1 := setByte (writeBytes bx 0 (v.file2.take v.cwdlen)) v.cwdlen NUL } →
      (vfs_getcwd v2).1 = (vfs_getcwd v).1 ∧
      v2.cwdlen = v.cwdlen ∧ v2.rootlen = v.rootlen ∧ v2.file2 = v.file2 ∧
      v2.file1.take (v.cwdlen - 1) = cwd.take (v.cwdlen - 1) ∧
      v2.file2.take (v.cwdlen - 1) = cwd.take (v.cwdlen - 1) := by
    intro bx hbxlen v2 hv2
    obtain ⟨hr1, hr2, hr3⟩ := restore_facts v cwd bx h1 h2 (by omega) hbxlen hcwd hf2 hf2rs
    have hg2 : (vfs_getcwd v2).1 = (cwd.take (v.cwdlen - 1)).drop (v.rootlen - 1) ++
        (if v.rootlen < v.cwdlen then [] else ['/']) := by
      subst hv2
      exact getcwd_value _ cwd h1 h2 hr3 hcwd hnul hr1 hr2
    subst hv2
    exact ⟨hg2.trans hgv.symm, rfl, rfl, rfl, hr1, hf2⟩
  rcases herr : (abspath_ v v.file1 cap path false).1 with _ | e
  · -- the resolution succeeded; the failure came later
    set b := (abspath_ v v.file1 cap path false).2 with hbdef
    have hblen : cap ≤ b.length :=
      abspath_success_length v v.file1 cap path false h1 h2 hb1 herr
    have hchd : vfs_chdir isDir v cap path =
        (let len0 := (strAt b 0).length
        if b[len0 - 1]? ≠ some '/' then
          if len0 + 2 ≥ cap then
            (some ChdirErr.tooLong,
              { v with file1 := setByte (writeBytes b 0 (v.file2.take v.cwdlen)) v.cwdlen NUL })
          else
            chdirCheck isDir v (setByte (setByte b len0 '/') (len0 + 1) NUL) (len0 + 1)
        else
          chdirCheck isDir v b len0) := by
      simp only [vfs_chdir, herr, hbdef]
    rw [hchd] at hfail ⊢
    simp only at hfail ⊢
    set len0 := (strAt b 0).length with hlen0
    by_cases hns : b[len0 - 1]? ≠ some '/'
    · rw [if_pos hns] at hfail ⊢
      by_cases hcap2 : len0 + 2 ≥ cap
      · rw [if_pos hcap2] at hfail ⊢
        exact hrestore b (by omega) _ rfl
      · rw [if_neg hcap2] at hfail ⊢
        -- slash appended, then the validation failed
        set b2 := setByte (setByte b len0 '/') (len0 + 1) NUL with hb2def
        have hb2len : v.cwdlen + 1 ≤ b2.length := by
          rw [hb2def, length_setByte, length_setByte]
          omega
        unfold chdirCheck at hfail ⊢
        by_cases hok : (len0 + 1 = v.rootlen ∨ isDir (strAt (setByte b2 (len0 + 1 - 1) NUL) 0) = true)
        · exfalso
          apply hfail
          simp only [if_pos hok]
        · simp only [if_neg hok]
          have hres := hrestore (setByte b2 (len0 + 1 - 1) NUL)
            (by rw [length_setByte]; omega) _ rfl
          exact ⟨hres.1, trivial, trivial, trivial, hres.2.2.2.2.1, hres.2.2.2.2.2⟩
    · rw [if_neg hns] at hfail ⊢
      unfold chdirCheck at hfail ⊢
      by_cases hok : (len0 = v.rootlen ∨ isDir (strAt (setByte b (len0 - 1) NUL) 0) = true)
      · exfalso
        apply hfail
        simp only [if_pos hok]
      · simp only [if_neg hok]
        have hres := hrestore (setByte b (len0 - 1) NUL)
          (by rw [length_setByte]; omega) _ rfl
        exact ⟨hres.1, trivial, trivial, trivial, hres.2.2.2.2.1, hres.2.2.2.2.2⟩
  · cases e
    · -- resolution failed on capacity: nothing was written at all
      have heq := abspath_false_fail_eq v v.file1 cap path (by rw [herr]; simp)
      have hchd : vfs_chdir isDir v cap path = (some ChdirErr.tooLong, { v with file1 := v.file1 }) := by
        simp only [vfs_chdir, heq]
      rw [hchd]
      exact ⟨rfl, rfl, rfl, rfl, hf1, hf2⟩
    · have h3 := abspath_false_err v v.file1 cap path
      rw [herr] at h3
      simp at h3

/-- Session with root and cwd both /d/, capacity 10. -/
def vfsRoot : Vfs :=
  { file1 := ['/', 'd', '/'] ++ List.replicate 7 NUL
    file2 := ['/', 'd', '/'] ++ List.replicate 7 NUL
    rootlen := 3
    cwdlen := 3 }

/-- C6 witness: chdir to a nonexistent directory fails and the observable
session state is unchanged. -/
theorem chdir_failure_transactional_witness :
    (vfs_getcwd (vfs_chdir (fun _ => false) vfsRoot 10 ['n', 'o', 'x']).2).1 =
      (vfs_getcwd vfsRoot).1 ∧
    (vfs_chdir (fun _ => false) vfsRoot 10 ['n', 'o', 'x']).2.cwdlen = vfsRoot.cwdlen ∧
    (vfs_chdir (fun _ => false) vfsRoot 10 ['n', 'o', 'x']).2.file2 = vfsRoot.file2 := by
  have h := chdir_failure_transactional (fun _ => false) vfsRoot 10 ['n', 'o', 'x']
    ['/', 'd', '/'] (by decide) (by decide) (by decide) (by decide) (by decide) (by decide)
    (by decide) (by decide) (by decide) (by decide) (by decide) (by decide)
  exact ⟨h.1, h.2.1, h.2.2.2.1⟩

/-! Claims C3 and C5: theory of the normalizer loops. -/

/-- Absence of the two-byte pattern `a b` anywhere in the string. -/
def NoOcc (a b : Char) (s : List Char) : Prop :=
  ∀ m, ¬ (s[m]? = some a ∧ s[m+1]? = some b)

/-- Head conditions guaranteed by the first normalize_path loop: the fragment
starts neither with a slash nor with a dot-slash. -/
def HeadOK (s : List Char) : Prop :=
  s[0]? ≠ some '/' ∧ ¬ (s[0]? = some '.' ∧ s[1]? = some '/')

/-- End-of-string or slash at index m: the two continuations after which the
third normalize_path loop rewrites a "/." or "/.." match. -/
def endSl (s : List Char) (m : Nat) : Prop := s[m]? = none ∨ s[m]? = some '/'

/-- A "/." occurrence that the third loop would rewrite (rather than skip):
"/." followed by end or slash, or "/.." followed by end or slash. -/
def ActiveAt (s : List Char) (m : Nat) : Prop :=
  (s[m]? = some '/' ∧ s[m+1]? = some '.') ∧
  (endSl s (m+2) ∨ (s[m+2]? = some '.' ∧ endSl s (m+3)))

/-- No rewritable "/." occurrence anywhere: the scan of the third loop leaves
such a string unchanged. -/
def NoActive (s : List Char) : Prop := ∀ m, ¬ ActiveAt s m

lemma findPat2_none_iff (a b : Char) (t : List Char) :
    findPat2 a b t = none ↔ ∀ m, ¬ (t[m]? = some a ∧ t[m+1]? = some b) := by
  induction t with
  | nil =>
    simp [findPat2]
  | cons x t ih =>
    cases t with
    | nil =>
      simp [findPat2]
    | cons y rest =>
      by_cases hxy : x = a ∧ y = b
      · simp only [findPat2, if_pos hxy]
        constructor
        · intro h; exact absurd h (by simp)
        · intro h
          exact absurd ⟨by simp [hxy.1], by simp [hxy.2]⟩ (h 0)
      · have hstep : findPat2 a b (x :: y :: rest) = (findPat2 a b (y :: rest)).map (· + 1) := by
          simp [findPat2, hxy]
        rw [hstep]
        constructor
        · intro h m
          have hin : findPat2 a b (y :: rest) = none := by
            rcases hfp : findPat2 a b (y :: rest) with _ | m2
            · rfl
            · rw [hfp] at h; simp at h
          have h2 := ih.mp hin
          rcases m with _ | m2
          · rintro ⟨ha, hb⟩
            simp at ha hb
            exact hxy ⟨ha, hb⟩
          · rintro ⟨ha, hb⟩
            rw [List.getElem?_cons_succ] at ha hb
            exact h2 m2 ⟨ha, hb⟩
        · intro h
          have hin : findPat2 a b (y :: rest) = none := by
            apply ih.mpr
            intro m
            rintro ⟨ha, hb⟩
            exact h (m+1) ⟨by simpa using ha, by simpa using hb⟩
          rw [hin]
          rfl

lemma findPat2_some_facts (a b : Char) (t : List Char) (m : Nat)
    (h : findPat2 a b t = some m) :
    t[m]? = some a ∧ t[m+1]? = some b ∧
    ∀ m2, m2 < m → ¬ (t[m2]? = some a ∧ t[m2+1]? = some b) := by
  induction t generalizing m with
  | nil => simp [findPat2] at h
  | cons x t ih =>
    cases t with
    | nil => simp [findPat2] at h
    | cons y rest =>
      by_cases hxy : x = a ∧ y = b
      · simp only [findPat2, if_pos hxy] at h
        have hm : m = 0 := by
          cases h; rfl
        subst hm
        exact ⟨by simp [hxy.1], by simp [hxy.2], fun m2 hm2 => absurd hm2 (by omega)⟩
      · have hstep : findPat2 a b (x :: y :: rest) = (findPat2 a b (y :: rest)).map (· + 1) := by
          simp [findPat2, hxy]
        rw [hstep] at h
        rcases hfp : findPat2 a b (y :: rest) with _ | m2
        · rw [hfp] at h; simp at h
        · rw [hfp] at h
          simp at h
          obtain ⟨h1, h2, h3⟩ := ih m2 hfp
          subst h
          refine ⟨by simpa using h1, by simpa using h2, ?_⟩
          intro m3 hm3
          rintro ⟨ha, hb⟩
          rcases m3 with _ | m4
          · simp at ha hb
            exact hxy ⟨ha, hb⟩
          · rw [List.getElem?_cons_succ] at ha hb
            exact h3 m4 (by omega) ⟨ha, hb⟩

lemma findPat2_eq_some_intro (a b : Char) (t : List Char) (m : Nat)
    (h1 : t[m]? = some a) (h2 : t[m+1]? = some b)
    (hmin : ∀ m2, m2 < m → ¬ (t[m2]? = some a ∧ t[m2+1]? = some b)) :
    findPat2 a b t = some m := by
  rcases hfp : findPat2 a b t with _ | m2
  · exact absurd ⟨h1, h2⟩ ((findPat2_none_iff a b t).mp hfp m)
  · obtain ⟨g1, g2, g3⟩ := findPat2_some_facts a b t m2 hfp
    rcases Nat.lt_trichotomy m m2 with hlt | heq | hgt
    · exact absurd ⟨h1, h2⟩ (g3 m hlt)
    · rw [heq]
    · exact absurd ⟨g1, g2⟩ (hmin m2 hgt)

/-- Index arithmetic of the in-place deletion `s.take j ++ s.drop (j+d)`. -/
lemma getElem?_delAt (s : List Char) (j d m : Nat) (hj : j ≤ s.length) :
    (s.take j ++ s.drop (j + d))[m]? = if m < j then s[m]? else s[m + d]? := by
  rw [List.getElem?_append]
  have hl : (s.take j).length = j := by
    simp [List.length_take]; omega
  rw [hl]
  by_cases hm : m < j
  · rw [if_pos hm, if_pos hm, List.getElem?_take, if_pos hm]
  · rw [if_neg hm, if_neg hm, List.getElem?_drop]
    congr 1
    omega

lemma lastSlash_eq_none (l : List Char) (h : '/' ∉ l) : lastSlash l = none := by
  induction l with
  | nil => rfl
  | cons c rest ih =>
    have hc : c ≠ '/' := fun he => h (he ▸ List.mem_cons_self c rest)
    have hr : '/' ∉ rest := fun hm => h (List.mem_cons_of_mem c hm)
    simp [lastSlash, ih hr, hc]

lemma noOcc_drop (a b : Char) (s : List Char) (n : Nat) (h : NoOcc a b s) :
    NoOcc a b (s.drop n) := by
  intro m
  rw [List.getElem?_drop, List.getElem?_drop]
  have h2 := h (n + m)
  intro hc
  apply h2
  refine ⟨hc.1, ?_⟩
  have : n + m + 1 = n + (m + 1) := by omega
  rw [this]
  exact hc.2

lemma stripLead_headOK (s : List Char) : HeadOK (stripLead s) := by
  induction s using stripLead.induct with
  | case1 rest ih => simpa [stripLead] using ih
  | case2 rest ih => simpa [stripLead] using ih
  | case3 s h1 h2 =>
    have hfix : stripLead s = s := by
      rw [stripLead.eq_def]
      split
      · exact absurd rfl (h1 _)
      · exact absurd rfl (h2 _)
      · rfl
    rw [hfix]
    rcases s with _ | ⟨c, rest⟩
    · exact ⟨by simp, by simp⟩
    · have hc : c ≠ '/' := fun he => h1 rest (by rw [he])
      constructor
      · simpa using hc
      · rintro ⟨ha, hb⟩
        simp at ha
        subst ha
        rcases rest with _ | ⟨c2, rest2⟩
        · simp at hb
        · simp at hb
          exact h2 rest2 (by rw [hb])

lemma stripLead_fix_of_headOK (s : List Char) (h : HeadOK s) : stripLead s = s := by
  rw [stripLead.eq_def]
  split
  · exact absurd (by simp) h.1
  · exact absurd ⟨by simp, by simp⟩ h.2
  · rfl

lemma collapseF_fix (fuel : Nat) (s : List Char) (i : Nat) (h : NoOcc '/' '/' s) :
    collapseF fuel s i = s := by
  cases fuel with
  | zero => rfl
  | succ f =>
    simp only [collapseF]
    have hnone : findPat2 '/' '/' (s.drop i) = none :=
      (findPat2_none_iff _ _ _).mpr (noOcc_drop _ _ _ _ h)
    rw [hnone]

/-- Invariant of the second normalize_path loop: starting from a string with
no adjacent dots and a clean head, and no double slash left of the scan
position, the loop ends with no double slash anywhere, still no adjacent dots,
and the head conditions intact. -/
lemma collapseF_invariant : ∀ (fuel : Nat) (s : List Char) (i : Nat),
    NoOcc '.' '.' s → HeadOK s →
    (∀ m, m < i → ¬ (s[m]? = some '/' ∧ s[m+1]? = some '/')) →
    s.length ≤ fuel + i →
    NoOcc '/' '/' (collapseF fuel s i) ∧ NoOcc '.' '.' (collapseF fuel s i) ∧
    HeadOK (collapseF fuel s i) := by
  intro fuel
  induction fuel with
  | zero =>
    intro s i hdd hh hss hfuel
    simp only [collapseF]
    refine ⟨?_, hdd, hh⟩
    intro m hc
    have hm : m + 1 < s.length := (List.getElem?_eq_some.mp hc.2).1
    exact hss m (by omega) hc
  | succ f ih =>
    intro s i hdd hh hss hfuel
    simp only [collapseF]
    rcases hfp : findPat2 '/' '/' (s.drop i) with _ | jr
    · refine ⟨?_, hdd, hh⟩
      have hno := (findPat2_none_iff _ _ _).mp hfp
      intro m hc
      have hm : m + 1 < s.length := (List.getElem?_eq_some.mp hc.2).1
      by_cases hmi : m < i
      · exact hss m hmi hc
      · apply hno (m - i)
        rw [List.getElem?_drop, List.getElem?_drop]
        have e1 : i + (m - i) = m := by omega
        have e2 : i + (m - i + 1) = m + 1 := by omega
        rw [e1, e2]
        exact hc
    · obtain ⟨g1, g2, g3⟩ := findPat2_some_facts _ _ _ _ hfp
      rw [List.getElem?_drop] at g1 g2
      have g2' : s[i + jr + 1]? = some '/' := by
        have e : i + (jr + 1) = i + jr + 1 := by omega
        rwa [e] at g2
      set j := i + jr with hj
      have hjlen : j + 1 < s.length := (List.getElem?_eq_some.mp g2').1
      -- no occurrence strictly between i and j
      have hmin : ∀ m, i ≤ m → m < j → ¬ (s[m]? = some '/' ∧ s[m+1]? = some '/') := by
        intro m hmi hmj hc
        apply g3 (m - i) (by omega)
        rw [List.getElem?_drop, List.getElem?_drop]
        have e1 : i + (m - i) = m := by omega
        have e2 : i + (m - i + 1) = m + 1 := by omega
        rw [e1, e2]
        exact hc
      have hnj : ∀ m, m < j → ¬ (s[m]? = some '/' ∧ s[m+1]? = some '/') := by
        intro m hmj
        by_cases hmi : m < i
        · exact hss m hmi
        · exact hmin m (by omega) hmj
      have hget : ∀ m, (s.take j ++ s.drop (j + 1))[m]? =
          if m < j then s[m]? else s[m + 1]? := by
        intro m
        exact getElem?_delAt s j 1 m (by omega)
      have hj1 : 1 ≤ j := by
        rcases Nat.eq_zero_or_pos j with h0 | h1
        · exfalso
          apply hh.1
          rw [h0] at g1
          exact g1
        · exact h1
      apply ih
      · -- no adjacent dots in the deleted string
        intro m hc
        rw [hget, hget] at hc
        by_cases hm1 : m + 1 < j
        · exact hdd m ⟨by rw [if_pos (by omega)] at hc; exact hc.1, by
            rw [if_pos hm1] at hc; exact hc.2⟩
        · by_cases hm0 : m < j
          · -- juncture pair: second byte is the slash after the deleted one
            have hm2 : m + 1 = j := by omega
            rw [if_pos hm0, if_neg (by omega)] at hc
            have : m + 1 + 1 = j + 1 := by omega
            rw [this] at hc
            rw [g2'] at hc
            exact absurd hc.2.symm (by decide)
          · rw [if_neg hm0, if_neg (by omega)] at hc
            exact hdd (m + 1) ⟨hc.1, by
              have : m + 1 + 1 = m + 2 := by omega
              rw [this]
              have e : m + 1 + 1 = m + 2 := by omega
              rw [← e]
              exact hc.2⟩
      · -- head conditions survive the deletion
        constructor
        · rw [hget, if_pos (by omega)]
          exact hh.1
        · rintro ⟨ha, hb⟩
          rw [hget, if_pos (by omega)] at ha
          by_cases h1j : 1 < j
          · rw [hget, if_pos h1j] at hb
            exact hh.2 ⟨ha, hb⟩
          · have hj1' : j = 1 := by omega
            rw [hget, if_neg (by omega)] at hb
            -- s[0] = '.' and j = 1 means the match sits right after a dot,
            -- contradicting the head condition on s
            apply hh.2
            refine ⟨ha, ?_⟩
            rw [hj1'] at g1
            exact g1
      · -- no double slash left of the new position
        intro m hmj hc
        rw [hget, hget] at hc
        by_cases hm1 : m + 1 < j
        · rw [if_pos (by omega), if_pos hm1] at hc
          exact hnj m (by omega) hc
        · have hm2 : m + 1 = j := by omega
          rw [if_pos (by omega), if_neg (by omega)] at hc
          have e : m + 1 + 1 = j + 1 := by omega
          rw [e, g2'] at hc
          -- the pair would be a double slash ending at the deleted position
          have : s[m]? = some '/' ∧ s[m+1]? = some '/' := ⟨hc.1, by rw [hm2]; exact g1⟩
          exact hnj m (by omega) this
      · -- fuel: the string shrank by one byte
        have hlen : (s.take j ++ s.drop (j + 1)).length = s.length - 1 := by
          simp [List.length_take, List.length_drop]
          omega
        rw [hlen]
        omega

lemma dotF_fix (s : List Char) (h : NoActive s) : ∀ (fuel i : Nat), dotF fuel s i = s := by
  intro fuel
  induction fuel with
  | zero => intro i; rfl
  | succ f ih =>
    intro i
    simp only [dotF]
    rcases hfp : findPat2 '/' '.' (s.drop i) with _ | jr
    · rfl
    · obtain ⟨g1, g2, g3⟩ := findPat2_some_facts _ _ _ _ hfp
      rw [List.getElem?_drop] at g1 g2
      have g2' : s[i + jr + 1]? = some '.' := by
        have e : i + (jr + 1) = i + jr + 1 := by omega
        rwa [e] at g2
      have hna := h (i + jr)
      have hc1 : ¬ s[i + jr + 1]? = some '/' := by
        rw [g2']
        simp
      have hc2 : ¬ (s[i + jr + 2]? = none ∨ s[i + jr + 2]? = some '/') := by
        intro hd
        exact hna ⟨⟨g1, g2'⟩, Or.inl hd⟩
      have hc3 : ¬ (s[i + jr + 2]? = some '.' ∧
          (s[i + jr + 3]? = none ∨ s[i + jr + 3]? = some '/')) := by
        intro hd
        exact hna ⟨⟨g1, g2'⟩, Or.inr hd⟩
      show (if s[i + jr + 1]? = some '/' then
          dotF f (s.take (i + jr) ++ s.drop (i + jr + 1)) (i + jr)
        else if s[i + jr + 2]? = none ∨ s[i + jr + 2]? = some '/' then
          dotF f (s.take (i + jr) ++ s.drop (i + jr + 2)) (i + jr)
        else if s[i + jr + 2]? = some '.' ∧
            (s[i + jr + 3]? = none ∨ s[i + jr + 3]? = some '/') then
          match lastSlash (s.take (i + jr)) with
          | some k => dotF f (s.take k ++ s.drop (i + jr + 3)) k
          | none =>
            if s[i + jr + 3]? = some '/' then dotF f (s.drop (i + jr + 4)) 0
            else dotF f (s.drop (i + jr + 3)) 0
        else dotF f s (i + jr + 2)) = s
      rw [if_neg hc1, if_neg hc2, if_neg hc3]
      exact ih (i + jr + 2)

/-- Invariant of the third normalize_path loop on strings with no adjacent
dots (so the dot-dot splices never fire): the loop preserves the absence of
adjacent dots and of double slashes and the head conditions, and it ends with
no rewritable "/." occurrence anywhere. -/
lemma dotF_invariant : ∀ (fuel : Nat) (s : List Char) (i : Nat),
    NoOcc '.' '.' s → NoOcc '/' '/' s → HeadOK s →
    (∀ m, m < i → ¬ ActiveAt s m) →
    3 * s.length ≤ fuel + i →
    NoOcc '.' '.' (dotF fuel s i) ∧ NoOcc '/' '/' (dotF fuel s i) ∧
    HeadOK (dotF fuel s i) ∧ NoActive (dotF fuel s i) := by
  intro fuel
  induction fuel with
  | zero =>
    intro s i hdd hss hh hib hfuel
    refine ⟨hdd, hss, hh, ?_⟩
    intro m hact
    have hm : m + 1 < s.length := (List.getElem?_eq_some.mp hact.1.2).1
    exact hib m (by omega) hact
  | succ f ih =>
    intro s i hdd hss hh hib hfuel
    rcases hfp : findPat2 '/' '.' (s.drop i) with _ | jr
    · simp only [dotF, hfp]
      refine ⟨hdd, hss, hh, ?_⟩
      have hno := (findPat2_none_iff _ _ _).mp hfp
      intro m hact
      by_cases hmi : m < i
      · exact hib m hmi hact
      · apply hno (m - i)
        rw [List.getElem?_drop, List.getElem?_drop]
        have e1 : i + (m - i) = m := by omega
        have e2 : i + (m - i + 1) = m + 1 := by omega
        rw [e1, e2]
        exact hact.1
    · simp only [dotF, hfp]
      obtain ⟨g1, g2, g3⟩ := findPat2_some_facts _ _ _ _ hfp
      rw [List.getElem?_drop] at g1 g2
      have g2' : s[i + jr + 1]? = some '.' := by
        have e : i + (jr + 1) = i + jr + 1 := by omega
        rwa [e] at g2
      set j := i + jr with hjdef
      have hij : i ≤ j := by omega
      have hjlen : j + 1 < s.length := (List.getElem?_eq_some.mp g2').1
      have hmin : ∀ m, i ≤ m → m < j → ¬ (s[m]? = some '/' ∧ s[m+1]? = some '.') := by
        intro m hmi hmj hc
        apply g3 (m - i) (by omega)
        rw [List.getElem?_drop, List.getElem?_drop]
        have e1 : i + (m - i) = m := by omega
        have e2 : i + (m - i + 1) = m + 1 := by omega
        rw [e1, e2]
        exact hc
      have hj1 : 1 ≤ j := by
        rcases Nat.eq_zero_or_pos j with h0 | h1
        · exfalso
          apply hh.1
          rw [h0] at g1
          exact g1
        · exact h1
      have hc1 : ¬ s[j + 1]? = some '/' := by
        rw [g2']
        simp
      rw [if_neg hc1]
      by_cases hdel : (s[j + 2]? = none ∨ s[j + 2]? = some '/')
      · rw [if_pos hdel]
        have hget : ∀ m, (s.take j ++ s.drop (j + 2))[m]? =
            if m < j then s[m]? else s[m + 2]? := fun m =>
          getElem?_delAt s j 2 m (by omega)
        apply ih
        · -- no adjacent dots after the deletion
          intro m hc
          rw [hget, hget] at hc
          by_cases hm1 : m + 1 < j
          · rw [if_pos (by omega), if_pos hm1] at hc
            exact hdd m hc
          · by_cases hm0 : m < j
            · rw [if_pos hm0, if_neg hm1] at hc
              have e : m + 1 + 2 = j + 2 := by omega
              rw [e] at hc
              rcases hdel with hd | hd
              · rw [hd] at hc
                exact absurd hc.2 (by simp)
              · rw [hd] at hc
                exact absurd hc.2.symm (by decide)
            · rw [if_neg hm0, if_neg (by omega)] at hc
              apply hdd (m + 2)
              refine ⟨hc.1, ?_⟩
              have e : m + 1 + 2 = m + 2 + 1 := by omega
              rw [← e]
              exact hc.2
        · -- no double slash after the deletion
          intro m hc
          rw [hget, hget] at hc
          by_cases hm1 : m + 1 < j
          · rw [if_pos (by omega), if_pos hm1] at hc
            exact hss m hc
          · by_cases hm0 : m < j
            · rw [if_pos hm0, if_neg hm1] at hc
              apply hss m
              refine ⟨hc.1, ?_⟩
              have e : m + 1 = j := by omega
              rw [e]
              exact g1
            · rw [if_neg hm0, if_neg (by omega)] at hc
              apply hss (m + 2)
              refine ⟨hc.1, ?_⟩
              have e : m + 1 + 2 = m + 2 + 1 := by omega
              rw [← e]
              exact hc.2
        · -- head conditions after the deletion
          constructor
          · rw [hget, if_pos (by omega)]
            exact hh.1
          · rintro ⟨ha, hb⟩
            rw [hget, if_pos (by omega)] at ha
            by_cases h1j : 1 < j
            · rw [hget, if_pos h1j] at hb
              exact hh.2 ⟨ha, hb⟩
            · have hj1' : j = 1 := by omega
              apply hh.2
              refine ⟨ha, ?_⟩
              rw [hj1'] at g1
              exact g1
        · -- every rewritable occurrence left of the new position is absent
          intro m hmj hact
          obtain ⟨⟨ha1, ha2⟩, hdisj⟩ := hact
          rw [hget, if_pos hmj] at ha1
          by_cases hm1 : m + 1 < j
          · rw [hget, if_pos hm1] at ha2
            -- a real "/." occurrence of s at m, left of j
            by_cases hmi : m < i
            · -- it was inert in s; show it is still inert in the new string
              apply hib m hmi
              refine ⟨⟨ha1, ha2⟩, ?_⟩
              by_cases hm2 : m + 2 < j
              · by_cases hm3 : m + 3 < j
                · rcases hdisj with hd | hd
                  · left
                    rcases hd with hd | hd
                    · rw [hget, if_pos hm2] at hd
                      exact Or.inl hd
                    · rw [hget, if_pos hm2] at hd
                      exact Or.inr hd
                  · right
                    obtain ⟨hd2, hd3⟩ := hd
                    rw [hget, if_pos hm2] at hd2
                    refine ⟨hd2, ?_⟩
                    rcases hd3 with hd | hd
                    · rw [hget, if_pos hm3] at hd
                      exact Or.inl hd
                    · rw [hget, if_pos hm3] at hd
                      exact Or.inr hd
                · -- m + 3 = j and s[j] is a slash: "/.." at m is active in s
                  have hm3' : m + 3 = j := by omega
                  rcases hdisj with hd | hd
                  · left
                    rcases hd with hd | hd
                    · rw [hget, if_pos hm2] at hd
                      exact Or.inl hd
                    · rw [hget, if_pos hm2] at hd
                      exact Or.inr hd
                  · right
                    obtain ⟨hd2, _⟩ := hd
                    rw [hget, if_pos hm2] at hd2
                    refine ⟨hd2, Or.inr ?_⟩
                    rw [hm3']
                    exact g1
              · -- m + 2 = j and s[j] is a slash: "/." at m is active in s
                have hm2' : m + 2 = j := by omega
                left
                right
                rw [hm2']
                exact g1
            · exact hmin m (by omega) (by omega) ⟨ha1, ha2⟩
          · -- the byte after the match is the one after the deletion: a dot
            -- there contradicts the deletion condition
            rw [hget, if_neg hm1] at ha2
            have e : m + 1 + 2 = j + 2 := by omega
            rw [e] at ha2
            rcases hdel with hd | hd
            · rw [hd] at ha2
              exact absurd ha2 (by simp)
            · rw [hd] at ha2
              exact absurd ha2.symm (by decide)
        · -- fuel: the string shrank by two bytes and the position moved to j
          have hlen : (s.take j ++ s.drop (j + 2)).length = s.length - 2 := by
            simp [List.length_take, List.length_drop]
            omega
          rw [hlen]
          omega
      · rw [if_neg hdel]
        have hc3 : ¬ (s[j + 2]? = some '.' ∧ (s[j + 3]? = none ∨ s[j + 3]? = some '/')) := by
          rintro ⟨hd2, _⟩
          apply hdd (j + 1)
          refine ⟨g2', ?_⟩
          have e : j + 1 + 1 = j + 2 := by omega
          rw [e]
          exact hd2
        rw [if_neg hc3]
        apply ih
        · exact hdd
        · exact hss
        · exact hh
        · intro m hm hact
          by_cases hmi : m < i
          · exact hib m hmi hact
          · by_cases hmj : m < j
            · exact hmin m (by omega) hmj hact.1
            · by_cases hmj2 : m = j
              · subst hmj2
                rcases hact.2 with hd | hd
                · exact hdel hd
                · exact hc3 hd
              · have hm1 : m = j + 1 := by omega
                rw [hm1] at hact
                have := hact.1.1
                rw [g2'] at this
                exact absurd this.symm (by decide)
        · omega

/-- Normal form of normalize_path on inputs with no adjacent dots: still no
adjacent dots, no double slash, clean head, no rewritable "/." occurrence. -/
lemma normalize_invariant (p : List Char) (hdd : NoOcc '.' '.' p) :
    NoOcc '.' '.' (normalize_path p) ∧ NoOcc '/' '/' (normalize_path p) ∧
    HeadOK (normalize_path p) ∧ NoActive (normalize_path p) := by
  obtain ⟨n, hn⟩ := stripLead_suffix p
  have hdd1 : NoOcc '.' '.' (stripLead p) := by
    rw [hn]
    exact noOcc_drop _ _ _ _ hdd
  have hh1 : HeadOK (stripLead p) := stripLead_headOK p
  obtain ⟨hss2, hdd2, hh2⟩ := collapseF_invariant (stripLead p).length (stripLead p) 0
    hdd1 hh1 (fun m hm => absurd hm (by omega)) (by omega)
  obtain ⟨hdd3, hss3, hh3, hna3⟩ := dotF_invariant
    (3 * (collapseF (stripLead p).length (stripLead p) 0).length)
    (collapseF (stripLead p).length (stripLead p) 0) 0
    hdd2 hss2 hh2 (fun m hm => absurd hm (by omega)) (by omega)
  exact ⟨hdd3, hss3, hh3, hna3⟩

/-- C5 counterexample: normalization is not idempotent.  On a/.././x the
dot-dot splice consumes the slash of the following ./ segment and leaves a
leading ./ that only a second pass strips: one pass gives ./x, two passes
give x. -/
theorem normalize_not_idempotent :
    normalize_path (normalize_path ['a', '/', '.', '.', '/', '.', '/', 'x']) ≠
      normalize_path ['a', '/', '.', '.', '/', '.', '/', 'x'] ∧
    normalize_path ['a', '/', '.', '.', '/', '.', '/', 'x'] = ['.', '/', 'x'] ∧
    normalize_path ['.', '/', 'x'] = ['x'] := by
  decide

/-- C5 amended: normalize_path is idempotent on every fragment with no two
adjacent dots (hence no dot-dot segment, the only source of the splices that
can re-expose a leading ./ some other pass would strip). -/
theorem normalize_idempotent_no_dotdot (p : List Char)
    (h : findPat2 '.' '.' p = none) :
    normalize_path (normalize_path p) = normalize_path p := by
  have hdd : NoOcc '.' '.' p := (findPat2_none_iff _ _ _).mp h
  obtain ⟨hdd2, hss2, hh2, hna2⟩ := normalize_invariant p hdd
  set o := normalize_path p with ho
  show normalize_path o = o
  have h1 : stripLead o = o := stripLead_fix_of_headOK o hh2
  have h2 : collapseF (stripLead o).length (stripLead o) 0 = o := by
    rw [h1]
    exact collapseF_fix _ _ _ hss2
  have h3 : normalize_path o =
      dotF (3 * (collapseF (stripLead o).length (stripLead o) 0).length) (collapseF (stripLead o).length (stripLead o) 0) 0 :=
    rfl
  rw [h3, h2]
  exact dotF_fix o hna2 _ 0

/-- C5 witness: idempotence at a concrete dot-dot-free fragment with
redundant separators and single-dot segments. -/
theorem normalize_idempotent_no_dotdot_witness :
    findPat2 '.' '.' ['.', '/', 'a', '/', '/', 'b', '/', '.'] = none ∧
    normalize_path (normalize_path ['.', '/', 'a', '/', '/', 'b', '/', '.']) =
      normalize_path ['.', '/', 'a', '/', '/', 'b', '/', '.'] :=
  ⟨by decide, normalize_idempotent_no_dotdot _ (by decide)⟩

/-! Claim C3: behavior of the dot-dot handler when the already-processed
prefix holds no slash. -/

/-- C3 counterexample: a dot-dot at the very start of the fragment is not
deleted — the scan looks for the two-byte pattern slash-dot, which a leading
dot-dot never forms, so ../x and .. pass through normalization unchanged
(they remain in the fragment rather than collapsing to nothing). -/
theorem leading_dotdot_survives :
    normalize_path ['.', '.', '/', 'x'] = ['.', '.', '/', 'x'] ∧
    normalize_path ['.', '.'] = ['.', '.'] := by
  decide

/-- C3 amended, first half: a fragment that is a nonempty slash-free segment
(other than a lone dot) followed by slash-dot-dot collapses to nothing. -/
lemma dotdot_absorb_end (P : List Char)
    (hP0 : P ≠ []) (hPs : '/' ∉ P) (hPd : P ≠ ['.']) :
    normalize_path (P ++ ['/', '.', '.']) = [] := by
  set p := P.length with hp
  set f := P ++ ['/', '.', '.'] with hf
  have hp0 : 0 < p := List.length_pos.mpr hP0
  have hflen : f.length = p + 3 := by
    rw [hf]
    simp [List.length_append]
  have hfg : ∀ m, f[m]? = if m < p then P[m]? else (['/', '.', '.'] : List Char)[m - p]? :=
    fun m => List.getElem?_append
  have hPget : ∀ m, m < p → ∃ c, P[m]? = some c ∧ c ≠ '/' := by
    intro m hm
    refine ⟨P[m], List.getElem?_eq_getElem hm, ?_⟩
    intro he
    exact hPs (he ▸ List.getElem_mem hm)
  have hfp0 : f[p]? = some '/' := by
    rw [hfg, if_neg (by omega), Nat.sub_self]
    rfl
  have hfp1 : f[p + 1]? = some '.' := by
    rw [hfg, if_neg (by omega)]
    have e : p + 1 - p = 1 := by omega
    rw [e]
    rfl
  have hfp2 : f[p + 2]? = some '.' := by
    rw [hfg, if_neg (by omega)]
    have e : p + 2 - p = 2 := by omega
    rw [e]
    rfl
  have hfp3 : f[p + 3]? = none := by
    rw [hfg, if_neg (by omega)]
    have e : p + 3 - p = 3 := by omega
    rw [e]
    rfl
  have hhead : HeadOK f := by
    constructor
    · rw [hfg, if_pos hp0]
      obtain ⟨c, hc, hcs⟩ := hPget 0 hp0
      rw [hc]
      simpa using hcs
    · rintro ⟨h0, h1⟩
      rw [hfg, if_pos hp0] at h0
      by_cases hp1 : 1 < p
      · rw [hfg, if_pos hp1] at h1
        obtain ⟨c, hc, hcs⟩ := hPget 1 hp1
        rw [hc] at h1
        exact hcs (Option.some_injective _ h1)
      · have hp1' : p = 1 := by omega
        apply hPd
        rcases P with _ | ⟨c, rest⟩
        · exact absurd rfl hP0
        · have hrest : rest = [] := by
            have h9 := hp1'
            simp [hp] at h9
            exact h9
          subst hrest
          simp at h0
          rw [h0]
  have hss : NoOcc '/' '/' f := by
    rintro m ⟨h1, h2⟩
    by_cases hm : m < p
    · rw [hfg, if_pos hm] at h1
      obtain ⟨c, hc, hcs⟩ := hPget m hm
      rw [hc] at h1
      exact hcs (Option.some_injective _ h1)
    · rw [hfg, if_neg hm] at h1
      rw [hfg, if_neg (by omega)] at h2
      rcases hk : m - p with _ | k
      · have e : m + 1 - p = 1 := by omega
        rw [e] at h2
        exact absurd (Option.some_injective _ h2).symm (by decide)
      · rw [hk] at h1
        rcases k with _ | k2
        · exact absurd (Option.some_injective _ h1).symm (by decide)
        · rcases k2 with _ | k3
          · exact absurd (Option.some_injective _ h1).symm (by decide)
          · simp at h1
  have hfind : findPat2 '/' '.' f = some p := by
    apply findPat2_eq_some_intro _ _ _ _ hfp0 hfp1
    rintro m2 hm2 ⟨h1, _⟩
    rw [hfg, if_pos hm2] at h1
    obtain ⟨c, hc, hcs⟩ := hPget m2 hm2
    rw [hc] at h1
    exact hcs (Option.some_injective _ h1)
  have hstrip : stripLead f = f := stripLead_fix_of_headOK f hhead
  have hcoll : collapseF (stripLead f).length (stripLead f) 0 = f := by
    rw [hstrip]
    exact collapseF_fix _ _ _ hss
  have hnf : normalize_path f =
      dotF (3 * (collapseF (stripLead f).length (stripLead f) 0).length) (collapseF (stripLead f).length (stripLead f) 0) 0 :=
    rfl
  rw [hnf, hcoll]
  obtain ⟨F, hF⟩ : ∃ F, 3 * f.length = F + 1 := by
    refine ⟨3 * f.length - 1, ?_⟩
    rw [hflen]
    omega
  rw [hF]
  have hfp' : findPat2 '/' '.' (f.drop 0) = some p := by
    rw [List.drop_zero]
    exact hfind
  simp only [dotF, hfp', Nat.zero_add]
  rw [if_neg (by rw [hfp1]; simp), if_neg (by rw [hfp2]; simp),
    if_pos ⟨hfp2, Or.inl hfp3⟩]
  have htake : f.take p = P := by
    rw [hf, hp]
    exact List.take_left P _
  rw [htake, lastSlash_eq_none P hPs]
  simp only
  rw [if_neg (by rw [hfp3]; simp)]
  have hdrop : f.drop (p + 3) = [] := by
    apply List.drop_eq_nil_of_le
    rw [hflen]
  rw [hdrop]
  apply dotF_fix
  rintro m ⟨⟨ha, _⟩, _⟩
  simp at ha

/-- C3 amended, second half: with a tail following the dot-dot, the spliced
result is exactly that tail — the slash after the dot-dot is skipped, the
slash-free leading segment and the dot-dot are both deleted. -/
lemma dotdot_absorb_mid (P r : List Char)
    (hP0 : P ≠ []) (hPs : '/' ∉ P) (hPd : P ≠ ['.'])
    (hr1 : findPat2 '/' '.' r = none)
    (hr2 : findPat2 '/' '/' ('/' :: r) = none) :
    normalize_path (P ++ ['/', '.', '.', '/'] ++ r) = r := by
  rw [List.append_assoc]
  set p := P.length with hp
  set f := P ++ (['/', '.', '.', '/'] ++ r) with hf
  have hp0 : 0 < p := List.length_pos.mpr hP0
  have hflen : f.length = p + 4 + r.length := by
    rw [hf]
    simp [List.length_append]
    omega
  have hfg : ∀ m, f[m]? =
      if m < p then P[m]? else ((['/', '.', '.', '/'] ++ r) : List Char)[m - p]? :=
    fun m => List.getElem?_append
  have htg : ∀ k, ((['/', '.', '.', '/'] ++ r) : List Char)[k]? =
      if k < 4 then (['/', '.', '.', '/'] : List Char)[k]? else r[k - 4]? :=
    fun k => List.getElem?_append
  have hPget : ∀ m, m < p → ∃ c, P[m]? = some c ∧ c ≠ '/' := by
    intro m hm
    refine ⟨P[m], List.getElem?_eq_getElem hm, ?_⟩
    intro he
    exact hPs (he ▸ List.getElem_mem hm)
  have hrno := (findPat2_none_iff _ _ _).mp hr1
  have hr2no := (findPat2_none_iff _ _ _).mp hr2
  have hr0 : r[0]? ≠ some '/' := by
    intro hc
    exact hr2no 0 ⟨by simp, by simpa using hc⟩
  have hrss : NoOcc '/' '/' r := by
    rintro k ⟨h1, h2⟩
    exact hr2no (k + 1) ⟨by simpa using h1, by simpa using h2⟩
  have hfp0 : f[p]? = some '/' := by
    rw [hfg, if_neg (by omega), Nat.sub_self, htg, if_pos (by omega)]
    rfl
  have hfp1 : f[p + 1]? = some '.' := by
    rw [hfg, if_neg (by omega)]
    have e : p + 1 - p = 1 := by omega
    rw [e, htg, if_pos (by omega)]
    rfl
  have hfp2 : f[p + 2]? = some '.' := by
    rw [hfg, if_neg (by omega)]
    have e : p + 2 - p = 2 := by omega
    rw [e, htg, if_pos (by omega)]
    rfl
  have hfp3 : f[p + 3]? = some '/' := by
    rw [hfg, if_neg (by omega)]
    have e : p + 3 - p = 3 := by omega
    rw [e, htg, if_pos (by omega)]
    rfl
  have hhead : HeadOK f := by
    constructor
    · rw [hfg, if_pos hp0]
      obtain ⟨c, hc, hcs⟩ := hPget 0 hp0
      rw [hc]
      simpa using hcs
    · rintro ⟨h0, h1⟩
      rw [hfg, if_pos hp0] at h0
      by_cases hp1 : 1 < p
      · rw [hfg, if_pos hp1] at h1
        obtain ⟨c, hc, hcs⟩ := hPget 1 hp1
        rw [hc] at h1
        exact hcs (Option.some_injective _ h1)
      · have hp1' : p = 1 := by omega
        apply hPd
        rcases P with _ | ⟨c, rest⟩
        · exact absurd rfl hP0
        · have hrest : rest = [] := by
            have h9 := hp1'
            simp [hp] at h9
            exact h9
          subst hrest
          simp at h0
          rw [h0]
  have hss : NoOcc '/' '/' f := by
    rintro m ⟨h1, h2⟩
    by_cases hm : m < p
    · rw [hfg, if_pos hm] at h1
      obtain ⟨c, hc, hcs⟩ := hPget m hm
      rw [hc] at h1
      exact hcs (Option.some_injective _ h1)
    · rw [hfg, if_neg hm] at h1
      rw [hfg, if_neg (by omega)] at h2
      rcases hk : m - p with _ | k
      · have e : m + 1 - p = 1 := by omega
        rw [e, htg, if_pos (by omega)] at h2
        exact absurd (Option.some_injective _ h2).symm (by decide)
      · rw [hk] at h1
        rcases k with _ | k2
        · rw [htg, if_pos (by omega)] at h1
          exact absurd (Option.some_injective _ h1).symm (by decide)
        · rcases k2 with _ | k3
          · rw [htg, if_pos (by omega)] at h1
            exact absurd (Option.some_injective _ h1).symm (by decide)
          · rcases k3 with _ | k4
            · -- the slash at index 3 of the tail: the next byte is r[0]
              have e : m + 1 - p = 4 := by omega
              rw [e, htg, if_neg (by omega)] at h2
              exact hr0 (by simpa using h2)
            · -- both bytes inside r: a double slash of r
              rw [htg, if_neg (by omega)] at h1
              have e : m + 1 - p = k4 + 4 + 1 := by omega
              rw [e, htg, if_neg (by omega)] at h2
              have ea : k4 + 1 + 1 + 1 + 1 - 4 = k4 := by omega
              have eb : k4 + 4 + 1 - 4 = k4 + 1 := by omega
              rw [ea] at h1
              rw [eb] at h2
              exact hrss k4 ⟨h1, h2⟩
  have hfind : findPat2 '/' '.' f = some p := by
    apply findPat2_eq_some_intro _ _ _ _ hfp0 hfp1
    rintro m2 hm2 ⟨h1, _⟩
    rw [hfg, if_pos hm2] at h1
    obtain ⟨c, hc, hcs⟩ := hPget m2 hm2
    rw [hc] at h1
    exact hcs (Option.some_injective _ h1)
  have hstrip : stripLead f = f := stripLead_fix_of_headOK f hhead
  have hcoll : collapseF (stripLead f).length (stripLead f) 0 = f := by
    rw [hstrip]
    exact collapseF_fix _ _ _ hss
  have hnf : normalize_path f =
      dotF (3 * (collapseF (stripLead f).length (stripLead f) 0).length) (collapseF (stripLead f).length (stripLead f) 0) 0 :=
    rfl
  rw [hnf, hcoll]
  obtain ⟨F, hF⟩ : ∃ F, 3 * f.length = F + 1 := by
    refine ⟨3 * f.length - 1, ?_⟩
    rw [hflen]
    omega
  rw [hF]
  have hfp' : findPat2 '/' '.' (f.drop 0) = some p := by
    rw [List.drop_zero]
    exact hfind
  simp only [dotF, hfp', Nat.zero_add]
  rw [if_neg (by rw [hfp1]; simp), if_neg (by rw [hfp2]; simp),
    if_pos ⟨hfp2, Or.inr hfp3⟩]
  have htake : f.take p = P := by
    rw [hf, hp]
    exact List.take_left P _
  rw [htake, lastSlash_eq_none P hPs]
  simp only
  rw [if_pos hfp3]
  have hdrop : f.drop (p + 4) = r := by
    have hassoc : f = (P ++ ['/', '.', '.', '/']) ++ r := by
      rw [hf, List.append_assoc]
    have hlen4 : (P ++ ['/', '.', '.', '/']).length = p + 4 := by
      simp [List.length_append, hp]
    rw [hassoc, ← hlen4]
    exact List.drop_left _ _
  rw [hdrop]
  apply dotF_fix
  rintro m ⟨⟨ha1, ha2⟩, _⟩
  exact hrno m ⟨ha1, ha2⟩

/-- C3 amended: the absorption of a dot-dot happens when a slash-dot-dot match
has no slash in its already-processed prefix, that prefix being a nonempty
slash-free segment; then the segment and the dot-dot are both deleted and the
output is exactly what follows (nothing, or the tail after the skipped slash).
A dot-dot at the very start of the fragment, by contrast, is never matched and
remains in the output (see the counterexample). -/
theorem dotdot_no_prev_slash_amended (P r : List Char)
    (hP0 : P ≠ []) (hPs : '/' ∉ P) (hPd : P ≠ ['.'])
    (hr1 : findPat2 '/' '.' r = none)
    (hr2 : findPat2 '/' '/' ('/' :: r) = none) :
    normalize_path (P ++ ['/', '.', '.']) = [] ∧
    normalize_path (P ++ ['/', '.', '.', '/'] ++ r) = r :=
  ⟨dotdot_absorb_end P hP0 hPs hPd, dotdot_absorb_mid P r hP0 hPs hPd hr1 hr2⟩

/-- C3 witness: a/.. collapses to nothing and a/../x collapses to x. -/
theorem dotdot_no_prev_slash_witness :
    normalize_path (['a'] ++ ['/', '.', '.']) = [] ∧
    normalize_path (['a'] ++ ['/', '.', '.', '/'] ++ ['x']) = ['x'] :=
  dotdot_no_prev_slash_amended ['a'] ['x'] (by decide) (by decide) (by decide)
    (by decide) (by decide)

end VfsModel
